import Mathlib

/-!
# Verification models for the `operant-operation` repository

Shallow embedding of the data model and operations of `src/op_op/`:

* `src/op_op/grouptype_crossval.py` — `GroupTypeKFold`
* `src/op_op/event_ts.py` — `events_to_time_series`
* `src/op_op/event_feature_eng.py` — `cumulative_reward`
* `src/op_op/load.py` — `load_session_data`
* `src/op_op/alignment.py` — `demarcate_trials`, `demarcate_latency_from_event`

Numeric values are modelled as rationals (`ℚ`); a missing value (`NaN`) is
modelled as `Option.none`.  Dataframes are modelled by an explicit
column-list / index / row-list structure so that the label-alignment
semantics of the pandas operations used by the source are visible.
-/

set_option maxHeartbeats 1000000

namespace OpOp

/-! ## Model of `src/op_op/grouptype_crossval.py`

`groups` and `group_types` are modelled as lists of naturals (any ordered
label set works for `np.unique`; the fixtures in the claims use integers and
the letters A/B, encoded order-preservingly as 0/1). -/

/-- Model of `np.unique`: the distinct values of the array in ascending sorted order. -/
def npUnique (l : List ℕ) : List ℕ :=
  (List.insertionSort (· ≤ ·) l).dedup

/-- Model of `np.flatnonzero(pred(arr))`: the indices of `l` at which `p` holds. -/
def idxWhere {α : Type} [Inhabited α] (l : List α) (p : α → Bool) : List ℕ :=
  (List.range l.length).filter (fun i => p (l.getD i default))

/-- Numpy fancy-index assignment `fold_assignments[group_indices] = fold`:
write the single value `v` at the positions listed in `idxs`. -/
def setAll (fa : List ℤ) (idxs : List ℕ) (v : ℤ) : List ℤ :=
  (List.range fa.length).map (fun i => if i ∈ idxs then v else fa.getD i 0)

/-- The inner loop of `GroupTypeKFold.split`: assign the groups of `gs` to
folds round-robin, starting from fold counter `c`, writing each group's fold
to all of its sample positions. -/
def innerLoop (nSplits : ℕ) (groups : List ℕ) (gs : List ℕ) (fa : List ℤ) (c : ℤ) :
    List ℤ × ℤ :=
  gs.foldl
    (fun st g =>
      (setAll st.1 (idxWhere groups (fun x => x = g)) st.2, (st.2 + 1) % (nSplits : ℤ)))
    (fa, c)

/-- Model of `np.unique(groups[type_indices])`: the unique groups occurring at the
positions whose group type is `gt`, in sorted order. -/
def typeGroupsOf (groups gtypes : List ℕ) (gt : ℕ) : List ℕ :=
  npUnique ((idxWhere gtypes (fun x => x = gt)).map (fun i => groups.getD i 0))

/-- The `fold_assignments` array computed by `GroupTypeKFold.split`
(`src/op_op/grouptype_crossval.py` lines 30-40): initialised to `-1`; for each
group type (in `np.unique` order), the unique groups occurring at that type's
indices are assigned folds round-robin starting from fold `0`, the assignment
being written to every sample of the group. -/
def foldAssignments (nSplits nSamples : ℕ) (groups gtypes : List ℕ) : List ℤ :=
  (npUnique gtypes).foldl
    (fun fa gt => (innerLoop nSplits groups (typeGroupsOf groups gtypes gt) fa 0).1)
    (List.replicate nSamples (-1 : ℤ))

/-- Model of `GroupTypeKFold.split` (`src/op_op/grouptype_crossval.py` lines 19-45):
yields, for each fold `0 ≤ f < n_splits`, the pair
`(train_idx, test_idx) = (flatnonzero(fa ≠ f), flatnonzero(fa = f))`.
`nSamples` stands for `len(X)`. -/
def GroupTypeKFold.split (nSplits nSamples : ℕ) (groups gtypes : List ℕ) :
    List (List ℕ × List ℕ) :=
  let fa := foldAssignments nSplits nSamples groups gtypes
  (List.range nSplits).map
    (fun (f : ℕ) =>
      (idxWhere fa (fun v => v ≠ (f : ℤ)), idxWhere fa (fun v => v = (f : ℤ))))

/-- The claim C4's reading of the assignment order: same loop as the source but
with the unique groups of each type taken in first-appearance order
(a stable unique-value scan, `List.dedup`) instead of `np.unique`'s sorted
order.  This definition follows the words of the spec, for comparison with
`foldAssignments`, which is translated from the source. -/
def foldAssignmentsFirstAppearance (nSplits nSamples : ℕ) (groups gtypes : List ℕ) :
    List ℤ :=
  (npUnique gtypes).foldl
    (fun fa gt =>
      let typeIndices := idxWhere gtypes (fun x => x = gt)
      let typeGroups := (typeIndices.map (fun i => groups.getD i 0)).dedup
      (innerLoop nSplits groups typeGroups fa 0).1)
    (List.replicate nSamples (-1 : ℤ))

/-- The split produced by the C4 first-appearance reading: as
`GroupTypeKFold.split` but with `foldAssignmentsFirstAppearance`. -/
def GroupTypeKFold.splitFirstAppearance (nSplits nSamples : ℕ) (groups gtypes : List ℕ) :
    List (List ℕ × List ℕ) :=
  let fa := foldAssignmentsFirstAppearance nSplits nSamples groups gtypes
  (List.range nSplits).map
    (fun (f : ℕ) =>
      (idxWhere fa (fun v => v ≠ (f : ℤ)), idxWhere fa (fun v => v = (f : ℤ))))

/-! ## Model of `src/op_op/event_ts.py` (`events_to_time_series`)

Times are rationals.  At the concrete inputs of claim C7 the IEEE-double
computations of the source (`1.0 / 0.1`, `0.5 / 0.1`, `np.ceil`) produce
exactly the rational values (`10`, `5`), so the rational model agrees with the
floating-point code there. -/

/-- Model of `.astype(int)` on a float array: truncation toward zero. -/
def ratTrunc (x : ℚ) : ℤ :=
  if 0 ≤ x then ⌊x⌋ else ⌈x⌉

/-- Model of `np.roll(l, s)`: circular shift; output position `i` holds
`l[(i - s) mod len(l)]`. -/
def npRoll (l : List ℚ) (s : ℤ) : List ℚ :=
  if l.length = 0 then l
  else (List.range l.length).map (fun i => l.getD (((i : ℤ) - s).emod l.length).toNat 0)

/-- Full discrete convolution, length `n + m - 1`. -/
def convolveFull (a k : List ℚ) : List ℚ :=
  (List.range (a.length + k.length - 1)).map
    (fun t =>
      (((List.range a.length).map
        (fun i => if i ≤ t ∧ t - i < k.length then a.getD i 0 * k.getD (t - i) 0 else 0)).sum))

/-- Model of `scipy.signal.convolve(a, k, mode="same")`: the central `len(a)` samples of
the full convolution, starting at offset `(len(k) - 1) / 2`. -/
def convolveSame (a k : List ℚ) : List ℚ :=
  ((convolveFull a k).drop ((k.length - 1) / 2)).take a.length

/-- Model of `events_to_time_series` (`src/op_op/event_ts.py` lines 6-43).
Returns `none` where numpy would raise: `np.max` of an empty array when no
`total_duration` is given, `np.zeros` of a negative size, or a fancy index
outside `[-n, n)` (negative in-range indices wrap, as in numpy). -/
def events_to_time_series (events_array : List ℚ) (sampling_interval : ℚ)
    (kernel : Option (List ℚ)) (total_duration : Option ℚ) (shift : ℤ) :
    Option (List ℚ) :=
  let total? : Option ℚ :=
    match total_duration, events_array with
    | some d, _ => some d
    | none, [] => none
    | none, e :: es => some (es.foldl max e)
  match total? with
  | none => none
  | some total =>
    let nz : ℤ := ⌈total / sampling_interval⌉
    if nz < 0 then none
    else
      let n : ℕ := nz.toNat
      let idxs := events_array.map (fun e => ratTrunc (e / sampling_interval))
      if idxs.all (fun j => -(n : ℤ) ≤ j ∧ j < (n : ℤ)) then
        let norm := idxs.map (fun j => (if j < 0 then j + (n : ℤ) else j).toNat)
        let ts := (List.range n).map (fun i => if i ∈ norm then (1 : ℚ) else 0)
        let ts := match kernel with
          | none => ts
          | some k => convolveSame ts k
        some (npRoll ts shift)
      else none

/-! ## Model of `src/op_op/event_feature_eng.py` (`cumulative_reward`) -/

/-- Running cumulative sum (`Series.cumsum` over a NaN-free float column). -/
def cumsum (l : List ℚ) : List ℚ :=
  (l.scanl (· + ·) 0).tail

/-- Model of `cumulative_reward` (`src/op_op/event_feature_eng.py` lines 29-54):
the boolean choice column is shifted down by one row (the leading slot
becoming missing), each slot is mapped through
`{True: large_reward_amt, False: small_reward_amt, np.nan: 0.0}`
(a missing slot maps to `0`), and the result is cumulatively summed. -/
def cumulative_reward (chose_large : List Bool) (large_reward_amt small_reward_amt : ℚ) :
    List ℚ :=
  let shifted : List (Option Bool) := none :: (chose_large.map some).dropLast
  let mapped := shifted.map
    (fun v =>
      match v with
      | some true => large_reward_amt
      | some false => small_reward_amt
      | none => 0)
  cumsum mapped

/-! ## Model of `src/op_op/load.py` (`load_session_data`)

The filesystem is modelled as a partial map from rendered paths to tables of
an arbitrary type `α`; `withMeta` stands for the `add_meta_cols` column
augmentation. -/

/-- The two error kinds raised by `load_session_data`. -/
inductive LoadError : Type where
  | valueError (msg : String)
  | fileNotFound (msg : String)
deriving DecidableEq, Repr

/-- The `FILENAMES` table of `src/op_op/load.py` lines 4-9. -/
def FILENAMES : List (String × String) :=
  [("events", "events.parquet"),
   ("motion", "motion_tracking.parquet"),
   ("deconv_calcium", "deconv_calcium.parquet"),
   ("raw_calcium", "raw_calcium.parquet")]

/-- Model of `load_session_data` (`src/op_op/load.py` lines 12-50): an unrecognized
`data_type` raises `ValueError(f"Unknown data type {data_type}.")`; a missing
file raises `FileNotFoundError(f"File {file_path} does not exist.")`;
otherwise the file at `data_dir/mouse_name/session/filename` is read and
returned, with the meta columns added when `add_meta_cols` is set. -/
def load_session_data {α : Type} (fs : String → Option α)
    (withMeta : String → String → α → α)
    (data_dir mouse_name session data_type : String) (add_meta_cols : Bool) :
    Except LoadError α :=
  match (FILENAMES.find? (fun p => p.1 = data_type)) with
  | none => .error (.valueError ("Unknown data type " ++ data_type ++ "."))
  | some p =>
    let file_path := data_dir ++ "/" ++ mouse_name ++ "/" ++ session ++ "/" ++ p.2
    match fs file_path with
    | none => .error (.fileNotFound ("File " ++ file_path ++ " does not exist."))
    | some df => .ok (if add_meta_cols then withMeta mouse_name session df else df)

/-- The recognized data-type tags (the keys of `FILENAMES`). -/
def recognizedTags : List String :=
  ["events", "motion", "deconv_calcium", "raw_calcium"]

/-- Example filesystem for the C9 witness: exactly one file exists. -/
def fsEx : String → Option ℕ :=
  fun p => if p = "root/m1/s1/events.parquet" then some 7 else none

/-! ## A mini-pandas dataframe model (for `src/op_op/alignment.py`)

A dataframe is a column-name list, an index (row labels, as in pandas), and a
row-major table of cells; a cell is `none` for NaN/missing.  The operations
below model exactly the pandas operations used by `demarcate_trials` and
`demarcate_latency_from_event`, including the behaviours those functions rely
on: `sort_values` returns a new frame that keeps the original labels,
`pd.merge_asof` validates key sortedness, suffixes overlapping column names
with `_x`/`_y` and gives the result a fresh RangeIndex, column assignment
`df[c] = series` aligns on index labels, and `Series.where` compares NaN as
unequal. -/

/-- Decidable equality for `Except` results (not provided by the library). -/
instance {e a : Type} [DecidableEq e] [DecidableEq a] : DecidableEq (Except e a) :=
  fun x y =>
    match x, y with
    | .ok u, .ok v =>
      if h : u = v then isTrue (by rw [h]) else isFalse (fun hc => by cases hc; exact h rfl)
    | .error u, .error v =>
      if h : u = v then isTrue (by rw [h]) else isFalse (fun hc => by cases hc; exact h rfl)
    | .ok _, .error _ => isFalse (fun hc => by cases hc)
    | .error _, .ok _ => isFalse (fun hc => by cases hc)

/-- A cell value: `none` models NaN/missing. -/
abbrev Val := Option ℚ

/-- Position of the first occurrence of column `c`. -/
def colIdx : List String → String → Option ℕ
  | [], _ => none
  | a :: as, c => if a = c then some 0 else (colIdx as c).map (· + 1)

/-- Cell access inside a row (out-of-range reads give NaN; never exercised on
well-formed frames). -/
def getCell (row : List Val) (j : ℕ) : Val := row.getD j none

/-- Comparison used by `sort_values` and `merge_asof` keys: ascending with
missing values last. -/
def vleB : Val → Val → Bool
  | some a, some b => a ≤ b
  | some _, none => true
  | none, none => true
  | none, some _ => false

structure DFrame where
  cols : List String
  index : List ℤ
  rows : List (List Val)
deriving DecidableEq, Repr, Inhabited

namespace DFrame

/-- Column extraction `df[c]` as a plain value list. -/
def col (df : DFrame) (c : String) : List Val :=
  match colIdx df.cols c with
  | some j => df.rows.map (fun r => getCell r j)
  | none => []

/-- Column extraction `df[c]`, raising `KeyError` when the column is absent. -/
def colE (df : DFrame) (c : String) : Except String (List Val) :=
  match colIdx df.cols c with
  | some j => .ok (df.rows.map (fun r => getCell r j))
  | none => .error ("KeyError: " ++ c)

/-- Sort rows by column `c`, ascending, keeping the original index labels
(`df.sort_values(by=c)`; modelled as a stable sort). -/
def sortValues (df : DFrame) (c : String) : Except String DFrame :=
  match colIdx df.cols c with
  | none => .error ("KeyError: " ++ c)
  | some j =>
    let sorted := List.insertionSort
      (fun p q : ℤ × List Val => vleB (getCell p.2 j) (getCell q.2 j) = true)
      (df.index.zip df.rows)
    .ok ⟨df.cols, sorted.map Prod.fst, sorted.map Prod.snd⟩

/-- Label-aligned lookup of a series value (missing label gives NaN). -/
def lookupLabel (s : List (ℤ × Val)) (lab : ℤ) : Val :=
  match s.find? (fun p => p.1 = lab) with
  | some p => p.2
  | none => none

/-- Column assignment `df[c] = series`: pandas aligns the series to the frame
by index label; an existing column is overwritten in place, a new column is
appended on the right. -/
def setCol (df : DFrame) (c : String) (s : List (ℤ × Val)) : DFrame :=
  let vals := df.index.map (lookupLabel s)
  match colIdx df.cols c with
  | some j => ⟨df.cols, df.index, (df.rows.zip vals).map (fun p => p.1.set j p.2)⟩
  | none => ⟨df.cols ++ [c], df.index, (df.rows.zip vals).map (fun p => p.1 ++ [p.2])⟩

/-- A column as a label-indexed series (`df[c]` keeping the index). -/
def series (df : DFrame) (c : String) : List (ℤ × Val) :=
  df.index.zip (df.col c)

/-- Drop a column (`df.drop(columns=[c])`; raises when absent). -/
def dropCol (df : DFrame) (c : String) : Except String DFrame :=
  match colIdx df.cols c with
  | none => .error ("KeyError: " ++ c)
  | some j => .ok ⟨df.cols.eraseIdx j, df.index, df.rows.map (fun r => r.eraseIdx j)⟩

/-- Rename a column (`df.rename(columns={c: c2})`): every matching name is
replaced; a missing name is silently ignored, as in pandas. -/
def renameCol (df : DFrame) (c c2 : String) : DFrame :=
  ⟨df.cols.map (fun x => if x = c then c2 else x), df.index, df.rows⟩

/-- Column selection/reordering `df[sel]` (raises when a name is absent). -/
def select (df : DFrame) (sel : List String) : Except String DFrame :=
  if sel.all (fun c => (colIdx df.cols c).isSome) then
    .ok ⟨sel, df.index,
      df.rows.map (fun r => sel.map (fun c => getCell r ((colIdx df.cols c).getD 0)))⟩
  else .error "KeyError: column selection"

/-- Row reversal `df.iloc[::-1]`. -/
def reverseRows (df : DFrame) : DFrame := ⟨df.cols, df.index.reverse, df.rows.reverse⟩

/-- Reset to a fresh RangeIndex (`df.reset_index(drop=True)`). -/
def resetIndex (df : DFrame) : DFrame :=
  ⟨df.cols, (List.range df.rows.length).map Int.ofNat, df.rows⟩

end DFrame

/-- Maximum of a column, skipping missing values (`Series.max`). -/
def colMax (vals : List Val) : Val :=
  vals.foldl
    (fun acc v =>
      match acc, v with
      | none, w => w
      | some a, none => some a
      | some a, some b => some (max a b)) none

/-- Python `max` of the two column maxima (both are present on every path the
claims exercise; the missing-value cases are never hit there). -/
def maxPair : Val → Val → Val
  | some a, some b => some (max a b)
  | some a, none => some a
  | none, b => b

/-- Scalar-minus-series cell operation (`max_time - df[c]`). -/
def vsub (m : Val) (v : Val) : Val :=
  match m, v with
  | some a, some b => some (a - b)
  | _, _ => none

/-- Sortedness of a key column, as validated by `pd.merge_asof`. -/
def chainLE (j : ℕ) : List (List Val) → Bool
  | [] => true
  | [_] => true
  | r :: q :: rest => vleB (getCell r j) (getCell q j) && chainLE j (q :: rest)

/-- Model of `pd.merge_asof(left, right, left_on=lOn, right_on=rOn,
direction="backward")`: validates that both key columns are sorted, left-joins
each left row to the last right row whose key is `≤` the left key (missing
keys never match), suffixes overlapping column names with `_x`/`_y`, and gives
the result a fresh RangeIndex. -/
def mergeAsof (left right : DFrame) (lOn rOn : String) : Except String DFrame :=
  match colIdx left.cols lOn, colIdx right.cols rOn with
  | some jL, some jR =>
    if chainLE jL left.rows then
      if chainLE jR right.rows then
        let outCols := left.cols.map (fun c => if c ∈ right.cols then c ++ "_x" else c)
          ++ right.cols.map (fun c => if c ∈ left.cols then c ++ "_y" else c)
        let noMatch : List Val := List.replicate right.cols.length none
        let matchRow := fun key : Val =>
          right.rows.foldl
            (fun acc r =>
              match getCell r jR, key with
              | some k, some t => if k ≤ t then r else acc
              | _, _ => acc) noMatch
        .ok ⟨outCols, (List.range left.rows.length).map Int.ofNat,
          left.rows.map (fun r => r ++ matchRow (getCell r jL))⟩
      else .error "ValueError: right keys must be sorted"
    else .error "ValueError: left keys must be sorted"
  | _, _ => .error "KeyError: merge key"

/-- The combination `s1.where(s1 == s2, np.nan)` on two positionally aligned
series: keep the first value where both are present and equal (NaN compares
unequal to everything, including NaN). -/
def whereEq : List Val → List Val → List Val :=
  List.zipWith (fun a b =>
    match a, b with
    | some x, some y => if x = y then some x else none
    | _, _ => none)

/-- Model of `demarcate_trials` (`src/op_op/alignment.py` lines 6-76), one
pandas operation per step:
sort both frames; forward `merge_asof` of the time column against the trial
start column; compute `max_time`; add the inverted-time columns; backward
(inverted-time) `merge_asof` on the reversed time series against the trials
sorted by inverted end time; re-sort that result by time and reset its index;
gate the forward trial index by equality with the backward trial index
(`where`, NaN compares unequal); assign the gated series (whose index is the
merge result's RangeIndex) to the created column by label alignment; drop a
temporary column and put `[time, created]` first. -/
def demarcate_trials (df_ts df_trials : DFrame)
    (df_ts_time_col : String := "time")
    (df_trials_start_col : String := "start_time")
    (df_trials_end_col : String := "reward_collection_time")
    (df_trials_idx_col : String := "trial_idx")
    (created_trial_idx_col : Option String := none) : Except String DFrame := do
  let created := match created_trial_idx_col with
    | some str => if str = "" then df_trials_idx_col else str
    | none => df_trials_idx_col
  let dfTs ← df_ts.sortValues df_ts_time_col
  let dfTrials ← df_trials.sortValues df_trials_start_col
  let rightStart ← dfTrials.select [df_trials_start_col, df_trials_idx_col]
  let mergedStart ← mergeAsof dfTs rightStart df_ts_time_col df_trials_start_col
  let tsTimes ← dfTs.colE df_ts_time_col
  let endVals ← dfTrials.colE df_trials_end_col
  let maxTime := maxPair (colMax tsTimes) (colMax endVals)
  let dfTs := dfTs.setCol "inverted_time" (dfTs.index.zip (tsTimes.map (vsub maxTime)))
  let dfTrials := dfTrials.setCol "inverted_end_time"
    (dfTrials.index.zip (endVals.map (vsub maxTime)))
  let rightStop0 ← dfTrials.select [df_trials_idx_col, "inverted_end_time"]
  let rightStop ← rightStop0.sortValues "inverted_end_time"
  let mergedStop0 ← mergeAsof dfTs.reverseRows rightStop "inverted_time" "inverted_end_time"
  let mergedStop1 ← mergedStop0.sortValues df_ts_time_col
  let mergedStop := mergedStop1.resetIndex
  let sStart ← mergedStart.colE df_trials_idx_col
  let sStop ← mergedStop.colE df_trials_idx_col
  let assigned := whereEq sStart sStop
  let dfTs := dfTs.setCol created (((List.range assigned.length).map Int.ofNat).zip assigned)
  let dfTs ← dfTs.dropCol "inverted_time"
  let firstCols := [df_ts_time_col, created]
  let otherCols := dfTs.cols.filter (fun c => ¬ (c ∈ firstCols))
  dfTs.select (firstCols ++ otherCols)

/-- Heap-instrumented rendering of `demarcate_trials`, statement by statement.
Heap slots 0 and 1 hold the caller's two dataframe objects; every pandas
operation is annotated as allocating a fresh object (`sort_values`,
`merge_asof`, column selection — their results are appended to the heap or
consumed as temporaries) or as mutating its target in place (column
assignment `df[c] = ...` and `drop(..., inplace=True)`, which `List.set` the
slot of the object the local name is then bound to).  Because the source
rebinds both local names to `sort_values` copies in its first two statements,
every in-place operation targets slot 2 or 3, never the caller's slots 0/1.
The second component is the returned frame (or the raised error). -/
def demarcate_trials_heap (df_ts df_trials : DFrame)
    (df_ts_time_col df_trials_start_col df_trials_end_col df_trials_idx_col : String)
    (created_trial_idx_col : Option String) : List DFrame × Except String DFrame :=
  let h0 : List DFrame := [df_ts, df_trials]
  let created := match created_trial_idx_col with
    | some str => if str = "" then df_trials_idx_col else str
    | none => df_trials_idx_col
  match (h0.getD 0 default).sortValues df_ts_time_col with
  | .error e => (h0, .error e)
  | .ok ts1 =>
    let h1 := h0 ++ [ts1]
    match (h1.getD 1 default).sortValues df_trials_start_col with
    | .error e => (h1, .error e)
    | .ok tr1 =>
      let h2 := h1 ++ [tr1]
      match (h2.getD 3 default).select [df_trials_start_col, df_trials_idx_col] with
      | .error e => (h2, .error e)
      | .ok rightStart =>
        match mergeAsof (h2.getD 2 default) rightStart df_ts_time_col
          df_trials_start_col with
        | .error e => (h2, .error e)
        | .ok mergedStart =>
          match (h2.getD 2 default).colE df_ts_time_col with
          | .error e => (h2, .error e)
          | .ok tsTimes =>
            match (h2.getD 3 default).colE df_trials_end_col with
            | .error e => (h2, .error e)
            | .ok endVals =>
              let maxTime := maxPair (colMax tsTimes) (colMax endVals)
              let h3 := h2.set 2 ((h2.getD 2 default).setCol "inverted_time"
                ((h2.getD 2 default).index.zip (tsTimes.map (vsub maxTime))))
              let h4 := h3.set 3 ((h3.getD 3 default).setCol "inverted_end_time"
                ((h3.getD 3 default).index.zip (endVals.map (vsub maxTime))))
              match (h4.getD 3 default).select [df_trials_idx_col, "inverted_end_time"] with
              | .error e => (h4, .error e)
              | .ok rightStop0 =>
                match rightStop0.sortValues "inverted_end_time" with
                | .error e => (h4, .error e)
                | .ok rightStop =>
                  match mergeAsof (h4.getD 2 default).reverseRows rightStop
                    "inverted_time" "inverted_end_time" with
                  | .error e => (h4, .error e)
                  | .ok mergedStop0 =>
                    match mergedStop0.sortValues df_ts_time_col with
                    | .error e => (h4, .error e)
                    | .ok mergedStop1 =>
                      let mergedStop := mergedStop1.resetIndex
                      match mergedStart.colE df_trials_idx_col with
                      | .error e => (h4, .error e)
                      | .ok sStart =>
                        match mergedStop.colE df_trials_idx_col with
                        | .error e => (h4, .error e)
                        | .ok sStop =>
                          let assigned := whereEq sStart sStop
                          let h5 := h4.set 2 ((h4.getD 2 default).setCol created
                            (((List.range assigned.length).map Int.ofNat).zip assigned))
                          match (h5.getD 2 default).dropCol "inverted_time" with
                          | .error e => (h5, .error e)
                          | .ok tsDropped =>
                            let h6 := h5.set 2 tsDropped
                            match (h6.getD 3 default).dropCol "inverted_end_time" with
                            | .error e => (h6, .error e)
                            | .ok trDropped =>
                              let h7 := h6.set 3 trDropped
                              let dfTs := h7.getD 2 default
                              let firstCols := [df_ts_time_col, created]
                              let otherCols := dfTs.cols.filter
                                (fun c => ¬ (c ∈ firstCols))
                              match dfTs.select (firstCols ++ otherCols) with
                              | .error e => (h7, .error e)
                              | .ok result => (h7 ++ [result], .ok result)

/-! ## Model of `demarcate_latency_from_event` (`src/op_op/alignment.py` 79-148) -/

/-- Rounding to `p` decimal places (`Series.round(p)`; numpy's banker
rounding differs from `round` only at exact half-way points, which no claim
exercises). -/
def roundPrec (x : ℚ) (p : ℤ) : ℚ :=
  (round (x * (10 : ℚ) ^ p) : ℤ) / (10 : ℚ) ^ p

/-- Model of `Series.diff()`: first slot missing, then successive differences
(missing propagates). -/
def seriesDiff : List Val → List Val
  | [] => []
  | v :: vs =>
    none :: ((v :: vs).zip vs).map (fun p =>
      match p.2, p.1 with
      | some a, some b => some (a - b)
      | _, _ => none)

/-- Model of `Series.median()`: median of the non-missing values (mean of the
two central values for an even count; missing for an empty series). -/
def medianVal (l : List Val) : Val :=
  let ys := List.insertionSort (· ≤ ·) (l.filterMap id)
  let k := ys.length
  if k = 0 then none
  else if k % 2 = 1 then some (ys.getD (k / 2) 0)
  else some ((ys.getD (k / 2 - 1) 0 + ys.getD (k / 2) 0) / 2)

/-- The `adjust_backward` block of `demarcate_latency_from_event`: subtract
the median of the successive latency differences from the latency column and
round it to `round_precision` decimals. -/
def adjustBackward (df : DFrame) (c : String) (prec : ℤ) : DFrame :=
  let lat := df.col c
  let dt := medianVal (seriesDiff lat)
  df.setCol c (df.index.zip (lat.map (fun v =>
    match v, dt with
    | some x, some d => some (roundPrec (x - d) prec)
    | _, _ => none)))

/-- Modelled from the spec: `calcium_clear.align.align_to_events`, the external
windowing collaborator of `demarcate_latency_from_event` (spec sections 4.2 and
6), which is not part of this repository.  Given a wide table, anchor event
timestamps, window bounds and a rounding precision, it returns the table with
an event-relative time column and an anchor-index column appended; with
`drop_non_aligned=False` every sample is kept, and samples inside no anchor's
window hold missing values in the two added columns.  Only the column
structure matters to the claims below; the cell values follow the spec's
wording (latency to the window's anchor, rounded). -/
def align_to_events (df_wide : DFrame) (events : List Val) (t_before t_after : ℚ)
    (time_col : String) (created_event_index_col created_aligned_time_col : String)
    (round_precision : ℤ) : DFrame :=
  let hit : Val → Val × Val := fun tv =>
    match tv with
    | none => (none, none)
    | some t =>
      events.enum.foldl
        (fun acc p =>
          match p.2 with
          | some e =>
            if e - t_before ≤ t ∧ t ≤ e + t_after then
              (some (roundPrec (t - e) round_precision), some ((p.1 : ℚ)))
            else acc
          | none => acc)
        (none, none)
  ⟨df_wide.cols ++ [created_aligned_time_col, created_event_index_col],
   df_wide.index,
   (df_wide.rows.zip (df_wide.col time_col)).map
     (fun p => p.1 ++ [(hit p.2).1, (hit p.2).2])⟩

/-- Model of `demarcate_latency_from_event` (`src/op_op/alignment.py` lines
79-148): align against the event times through the collaborator with the
temporary event-index column name `event_idx_TEMP`; optionally apply the
backward adjustment; then either drop the temporary column (no event-index
column requested) or rename it to the requested name; finally reorder the
columns, where the source appends the temporary name `event_idx_TEMP` — not
the requested name — to `first_cols`. -/
def demarcate_latency_from_event (df_ts df_events : DFrame)
    (event_time_col : String := "start_time")
    (t_before_event : ℚ := 0) (t_after_event : ℚ := 10100)
    (df_ts_time_col : String := "time")
    (created_latency_col : Option String := none)
    (created_event_idx_col : Option String := none)
    (_copy : Bool := false)
    (round_precision : ℤ := 1)
    (adjust_backward : Bool := true) : Except String DFrame := do
  let createdLatency := match created_latency_col with
    | some str => if str = "" then "latency_from_" ++ event_time_col else str
    | none => "latency_from_" ++ event_time_col
  let tempEventIdxCol := "event_idx_TEMP"
  let eventVals ← df_events.colE event_time_col
  let dfAligned := align_to_events df_ts eventVals t_before_event t_after_event
    df_ts_time_col tempEventIdxCol createdLatency round_precision
  let dfAligned := if adjust_backward then
      adjustBackward dfAligned createdLatency round_precision
    else dfAligned
  let dfAligned ← match created_event_idx_col with
    | none => dfAligned.dropCol tempEventIdxCol
    | some c => pure (dfAligned.renameCol tempEventIdxCol c)
  let firstCols := [df_ts_time_col, createdLatency] ++
    (match created_event_idx_col with
     | some _ => [tempEventIdxCol]
     | none => [])
  let otherCols := dfAligned.cols.filter (fun c => ¬ (c ∈ firstCols))
  dfAligned.select (firstCols ++ otherCols)

/-- Fixture for C3: a two-column time series and a single event at time 0. -/
def tsLatEx : DFrame := ⟨["time", "x"], [0, 1], [[some 0, some 5], [some 1, some 6]]⟩

/-- Fixture for C3: one event table with a single start time 0. -/
def eventsLatEx : DFrame := ⟨["start_time"], [0], [[some 0]]⟩

/-! ### Concrete fixtures for the demarcation claims -/

/-- A time-series table already sorted by time, default index, times 1 and 5. -/
def tsSortedEx : DFrame := ⟨["time"], [0, 1], [[some 1], [some 5]]⟩

/-- The same samples in unsorted order (times 5 then 1), default index. -/
def tsUnsortedEx : DFrame := ⟨["time"], [0, 1], [[some 5], [some 1]]⟩

/-- Two proper, non-overlapping trials sorted by start: `[0, 2)` with index 0
and `[4, 6)` with index 1. -/
def trialsEx : DFrame :=
  ⟨["start_time", "reward_collection_time", "trial_idx"], [0, 1],
   [[some 0, some 2, some 0], [some 4, some 6, some 1]]⟩

/-- Two proper touching trials sorted by start: `[0, 1)` with index 0 and
`[1, 2)` with index 1 (the first trial's end equals the second's start). -/
def trialsTouchEx : DFrame :=
  ⟨["start_time", "reward_collection_time", "trial_idx"], [0, 1],
   [[some 0, some 1, some 0], [some 1, some 2, some 1]]⟩

/-- A single sample exactly at the second trial's start boundary (time 1). -/
def tsBoundaryEx : DFrame := ⟨["time"], [0], [[some 1]]⟩

/-- The outer loop of `foldAssignments` over a list of group types. -/
def outerLoop (nSplits : ℕ) (groups gtypes : List ℕ) (ts : List ℕ) (fa : List ℤ) :
    List ℤ :=
  ts.foldl (fun fa gt => (innerLoop nSplits groups (typeGroupsOf groups gtypes gt) fa 0).1) fa

/-! ### Per-sample match functions and expected output of
`demarcate_trials` (used to state the characterization of clean runs) -/

/-- A trial row: (start time, end time, trial index value). -/
abbrev TrialT := ℚ × ℚ × ℚ

/-- The trial table of `demarcate_trials` as a dataframe with the default
column names and a default RangeIndex. -/
def trialsDF (trials : List TrialT) : DFrame :=
  ⟨["start_time", "reward_collection_time", "trial_idx"],
   (List.range trials.length).map Int.ofNat,
   trials.map (fun tr => [some tr.1, some tr.2.1, some tr.2.2])⟩

/-- Forward per-sample match: the index value of the last trial (in start
order) whose start is at or before `t`. -/
def fwdMatch (trials : List TrialT) (t : ℚ) : Val :=
  trials.foldl (fun acc tr => if tr.1 ≤ t then some tr.2.2 else acc) none

/-- Backward per-sample match: scanning trials by descending end (ascending
inverted end `m - end`), the index value of the last one whose inverted end is
at or before the inverted sample time `m - t`. -/
def bwdMatch (trials : List TrialT) (m t : ℚ) : Val :=
  trials.reverse.foldl
    (fun acc tr => if m - tr.2.1 ≤ m - t then some tr.2.2 else acc) none

/-- The agreement gate (`where` with NaN comparing unequal). -/
def agreeVal : Val → Val → Val
  | some a, some b => if a = b then some a else none
  | _, _ => none

/-- The per-sample trial-index assignment of a clean `demarcate_trials` run. -/
def assignVal (trials : List TrialT) (m t : ℚ) : Val :=
  agreeVal (fwdMatch trials t) (bwdMatch trials m t)

/-! ### Column-position lemmas -/

/-- Strict cell comparison (both values present and strictly increasing). -/
def vltB : Val → Val → Bool
  | some a, some b => a < b
  | _, _ => false

/-- The expected output frame of a clean `demarcate_trials` run. -/
def demarcResult (tsCols : List String) (tsRows : List (List Val)) (times : List ℚ)
    (trials : List TrialT) (m : ℚ) (cr : String) : DFrame :=
  ⟨"time" :: cr :: tsCols.filter (fun c => ¬ (c ∈ ["time", cr])),
   (List.range tsRows.length).map Int.ofNat,
   (times.zip tsRows).map (fun p =>
     some p.1 :: assignVal trials m p.1 ::
       (tsCols.filter (fun c => ¬ (c ∈ ["time", cr]))).map
         (fun c => getCell p.2 ((colIdx tsCols c).getD 0)))⟩

/-! ## Claim theorems: rasterization and features -/

/-- C7: `events_to_time_series([0.5, 0.5], sampling_interval=0.1,
total_duration=1.0)` returns an array of length `ceil(1.0/0.1) = 10` with a
single `1` at index `5` and `0` everywhere else: both events map by integer
truncation of `event_time / sampling_interval` (`int(0.5/0.1) = 5`) to the
same sample index and collapse to a single `1` with no accumulation.  (At
these inputs the source's IEEE-double divisions are exact, so the rational
model agrees with the floating-point code.) -/
theorem C7_rasterization_duplicates_collapse :
    events_to_time_series [1/2, 1/2] (1/10) none (some 1) 0 =
      some [0, 0, 0, 0, 0, 1, 0, 0, 0, 0] := by
  norm_num [events_to_time_series, ratTrunc, npRoll, List.range_succ]
  decide

/-- C8: for an event table with `chose_large = [True, False, True]`,
`large_reward_amt = 1.0` and `small_reward_amt = 0.0`, `cumulative_reward`
returns `[0.0, 1.0, 1.0]`: the choice column is shifted by one row, the
leading missing value maps to zero, and the shifted values are cumulatively
summed. -/
theorem C8_cumulative_reward_example :
    cumulative_reward [true, false, true] 1 0 = [0, 1, 1] := by
  norm_num [cumulative_reward, cumsum, List.scanl]

/-! ## Claim theorem: `load_session_data` error handling (C9) -/

/-- C9: `load_session_data` raises a value-kind error naming the invalid tag
if and only if `data_type` is not one of the recognized tags; when the tag is
recognized but the expected file is absent it raises a not-found-kind error
naming the expected path; and when the tag is recognized and the file is
present it returns the loaded table (with meta columns applied as requested)
without error. -/
theorem C9_load_session_data_errors {α : Type} (fs : String → Option α)
    (withMeta : String → String → α → α)
    (data_dir mouse_name session data_type : String) (add_meta_cols : Bool) :
    ((load_session_data fs withMeta data_dir mouse_name session data_type add_meta_cols
        = .error (.valueError ("Unknown data type " ++ data_type ++ ".")))
      ↔ data_type ∉ recognizedTags)
    ∧ (∀ fn, (data_type, fn) ∈ FILENAMES →
        fs (data_dir ++ "/" ++ mouse_name ++ "/" ++ session ++ "/" ++ fn) = none →
        load_session_data fs withMeta data_dir mouse_name session data_type add_meta_cols
          = .error (.fileNotFound ("File " ++
              (data_dir ++ "/" ++ mouse_name ++ "/" ++ session ++ "/" ++ fn) ++
              " does not exist.")))
    ∧ (∀ fn df, (data_type, fn) ∈ FILENAMES →
        fs (data_dir ++ "/" ++ mouse_name ++ "/" ++ session ++ "/" ++ fn) = some df →
        load_session_data fs withMeta data_dir mouse_name session data_type add_meta_cols
          = .ok (if add_meta_cols then withMeta mouse_name session df else df)) := by
  by_cases htag : data_type ∈ recognizedTags
  · have hcases : data_type = "events" ∨ data_type = "motion" ∨
        data_type = "deconv_calcium" ∨ data_type = "raw_calcium" := by
      simpa [recognizedTags] using htag
    have key : ∀ tag fname : String,
        FILENAMES.find? (fun p => p.1 = tag) = some (tag, fname) →
        (∀ fn', (tag, fn') ∈ FILENAMES → fn' = fname) →
        tag ∈ recognizedTags →
        ((load_session_data fs withMeta data_dir mouse_name session tag add_meta_cols
            = .error (.valueError ("Unknown data type " ++ tag ++ ".")))
          ↔ tag ∉ recognizedTags)
        ∧ (∀ fn, (tag, fn) ∈ FILENAMES →
            fs (data_dir ++ "/" ++ mouse_name ++ "/" ++ session ++ "/" ++ fn) = none →
            load_session_data fs withMeta data_dir mouse_name session tag add_meta_cols
              = .error (.fileNotFound ("File " ++
                  (data_dir ++ "/" ++ mouse_name ++ "/" ++ session ++ "/" ++ fn) ++
                  " does not exist.")))
        ∧ (∀ fn df, (tag, fn) ∈ FILENAMES →
            fs (data_dir ++ "/" ++ mouse_name ++ "/" ++ session ++ "/" ++ fn) = some df →
            load_session_data fs withMeta data_dir mouse_name session tag add_meta_cols
              = .ok (if add_meta_cols then withMeta mouse_name session df else df)) := by
      intro tag fname hfind huniq htag'
      refine ⟨⟨fun hval => ?_, fun hmem => absurd htag' hmem⟩,
        fun fn hfn hfs => ?_, fun fn df hfn hfs => ?_⟩
      · unfold load_session_data at hval
        rw [hfind] at hval
        rcases hfs' : fs (data_dir ++ "/" ++ mouse_name ++ "/" ++ session ++ "/" ++ fname)
          with _ | d <;> simp [hfs'] at hval
      · have hfe := huniq fn hfn
        subst hfe
        unfold load_session_data
        rw [hfind]
        simp [hfs]
      · have hfe := huniq fn hfn
        subst hfe
        unfold load_session_data
        rw [hfind]
        simp [hfs]
    rcases hcases with h | h | h | h <;> subst h
    · exact key "events" "events.parquet" (by decide)
        (fun fn' h => by simpa [FILENAMES] using h) htag
    · exact key "motion" "motion_tracking.parquet" (by decide)
        (fun fn' h => by simpa [FILENAMES] using h) htag
    · exact key "deconv_calcium" "deconv_calcium.parquet" (by decide)
        (fun fn' h => by simpa [FILENAMES] using h) htag
    · exact key "raw_calcium" "raw_calcium.parquet" (by decide)
        (fun fn' h => by simpa [FILENAMES] using h) htag
  · have hfind : FILENAMES.find? (fun p => p.1 = data_type) = none := by
      apply List.find?_eq_none.mpr
      intro p hp
      simp only [FILENAMES, List.mem_cons, List.not_mem_nil, or_false] at hp
      rcases hp with h | h | h | h <;> subst h <;>
        simpa [recognizedTags] using fun hcontra => htag (by simp [recognizedTags, ← hcontra])
    have hkeys : ∀ fn, (data_type, fn) ∉ FILENAMES := by
      intro fn hmem
      simp only [FILENAMES, List.mem_cons, List.not_mem_nil, or_false,
        Prod.mk.injEq] at hmem
      rcases hmem with h | h | h | h <;>
        exact htag (by simp [recognizedTags, h.1])
    refine ⟨?_, fun fn hfn _ => absurd hfn (hkeys fn), fun fn df hfn _ => absurd hfn (hkeys fn)⟩
    simp [load_session_data, hfind, htag]

/-- Witness for C9 at concrete inputs: an unknown tag gives the value error,
a recognized tag with an existing file loads it, and a recognized tag with a
missing file gives the not-found error. -/
theorem C9_load_session_data_errors_witness :
    (load_session_data fsEx (fun _ _ x => x) "root" "m1" "s1" "bogus" false
      = .error (.valueError "Unknown data type bogus."))
    ∧ (load_session_data fsEx (fun _ _ x => x) "root" "m1" "s1" "events" false
      = .ok 7)
    ∧ (load_session_data fsEx (fun _ _ x => x) "root" "m1" "s1" "motion" false
      = .error (.fileNotFound "File root/m1/s1/motion_tracking.parquet does not exist.")) := by
  refine ⟨?_, ?_, ?_⟩
  · have h := (C9_load_session_data_errors fsEx (fun _ _ x => x)
      "root" "m1" "s1" "bogus" false).1.mpr (by decide)
    simpa using h
  · have h := (C9_load_session_data_errors fsEx (fun _ _ x => x)
      "root" "m1" "s1" "events" false).2.2 "events.parquet" 7 (by decide)
      (by simp [fsEx])
    simpa using h
  · have h := (C9_load_session_data_errors fsEx (fun _ _ x => x)
      "root" "m1" "s1" "motion" false).2.1 "motion_tracking.parquet" (by decide)
      (by simp [fsEx])
    simpa using h

/-! ### Lemmas about the cross-validation splitter -/

theorem mem_idxWhere {α : Type} [Inhabited α] {l : List α} {p : α → Bool} {i : ℕ} :
    i ∈ idxWhere l p ↔ i < l.length ∧ p (l.getD i default) = true := by
  simp [idxWhere, List.mem_filter, List.mem_range]

theorem getD_map_range {α : Type} (f : ℕ → α) (n i : ℕ) (d : α) :
    ((List.range n).map f).getD i d = if i < n then f i else d := by
  by_cases h : i < n
  · rw [List.getD_eq_getElem _ _ (by simpa using h)]
    simp [h]
  · rw [List.getD_eq_default _ _ (by simpa using Nat.le_of_not_lt h)]
    simp [h]

theorem setAll_length (fa : List ℤ) (idxs : List ℕ) (v : ℤ) :
    (setAll fa idxs v).length = fa.length := by
  simp [setAll]

theorem setAll_getD (fa : List ℤ) (idxs : List ℕ) (v : ℤ) (i : ℕ) :
    (setAll fa idxs v).getD i 0 =
      if i < fa.length then (if i ∈ idxs then v else fa.getD i 0) else 0 := by
  simp only [setAll]
  rw [getD_map_range]

theorem npUnique_mem {l : List ℕ} {x : ℕ} : x ∈ npUnique l ↔ x ∈ l := by
  simp [npUnique]

theorem npUnique_nodup (l : List ℕ) : (npUnique l).Nodup := by
  exact List.nodup_dedup _

theorem innerLoop_nil (nSplits : ℕ) (groups : List ℕ) (fa : List ℤ) (c : ℤ) :
    innerLoop nSplits groups [] fa c = (fa, c) := rfl

theorem innerLoop_cons (nSplits : ℕ) (groups : List ℕ) (g : ℕ) (gs : List ℕ)
    (fa : List ℤ) (c : ℤ) :
    innerLoop nSplits groups (g :: gs) fa c =
      innerLoop nSplits groups gs (setAll fa (idxWhere groups (fun x => x = g)) c)
        ((c + 1) % (nSplits : ℤ)) := rfl

theorem innerLoop_length (nSplits : ℕ) (groups : List ℕ) :
    ∀ (gs : List ℕ) (fa : List ℤ) (c : ℤ),
      (innerLoop nSplits groups gs fa c).1.length = fa.length := by
  intro gs
  induction gs with
  | nil => intro fa c; rfl
  | cons g gs ih =>
    intro fa c
    rw [innerLoop_cons, ih, setAll_length]

theorem int_emod_add_left (a b n : ℤ) : (a % n + b) % n = (a + b) % n := by
  conv_rhs => rw [← Int.emod_add_ediv a n]
  rw [show a % n + n * (a / n) + b = a % n + b + n * (a / n) by ring,
    Int.add_mul_emod_self_left]

theorem innerLoop_counter (nSplits : ℕ) (groups : List ℕ) (hn : 0 < nSplits) :
    ∀ (gs : List ℕ) (fa : List ℤ) (c : ℤ), 0 ≤ c → c < nSplits →
      0 ≤ (innerLoop nSplits groups gs fa c).2 ∧
        (innerLoop nSplits groups gs fa c).2 < nSplits := by
  intro gs
  induction gs with
  | nil => intro fa c h0 h1; exact ⟨h0, h1⟩
  | cons g gs ih =>
    intro fa c h0 h1
    rw [innerLoop_cons]
    have hnz : (nSplits : ℤ) ≠ 0 := by exact_mod_cast Nat.pos_iff_ne_zero.mp hn
    exact ih _ _ (Int.emod_nonneg _ hnz)
      (Int.emod_lt_of_pos _ (by exact_mod_cast hn))

/-- Value evolution through the inner loop: every entry is either untouched or
holds a fold in `[0, nSplits)`; entries whose group occurs in `gs` end up
holding a fold in `[0, nSplits)`. -/
theorem innerLoop_getD (nSplits : ℕ) (groups : List ℕ) (hn : 0 < nSplits) :
    ∀ (gs : List ℕ) (fa : List ℤ) (c : ℤ), 0 ≤ c → c < nSplits → ∀ i : ℕ,
      ((innerLoop nSplits groups gs fa c).1.getD i 0 = fa.getD i 0 ∨
        (0 ≤ (innerLoop nSplits groups gs fa c).1.getD i 0 ∧
          (innerLoop nSplits groups gs fa c).1.getD i 0 < nSplits)) ∧
      (i < groups.length → i < fa.length → groups.getD i 0 ∈ gs →
        0 ≤ (innerLoop nSplits groups gs fa c).1.getD i 0 ∧
          (innerLoop nSplits groups gs fa c).1.getD i 0 < nSplits) := by
  intro gs
  induction gs with
  | nil =>
    intro fa c h0 h1 i
    exact ⟨Or.inl rfl, fun _ _ h => absurd h (List.not_mem_nil _)⟩
  | cons g gs ih =>
    intro fa c h0 h1 i
    rw [innerLoop_cons]
    have hnz : (nSplits : ℤ) ≠ 0 := by exact_mod_cast Nat.pos_iff_ne_zero.mp hn
    have hc' : 0 ≤ (c + 1) % (nSplits : ℤ) ∧ (c + 1) % (nSplits : ℤ) < nSplits :=
      ⟨Int.emod_nonneg _ hnz, Int.emod_lt_of_pos _ (by exact_mod_cast hn)⟩
    have ihi := ih (setAll fa (idxWhere groups (fun x => x = g)) c)
      ((c + 1) % (nSplits : ℤ)) hc'.1 hc'.2 i
    have hset := setAll_getD fa (idxWhere groups (fun x => x = g)) c i
    constructor
    · rcases ihi.1 with h | h
      · rw [h, hset]
        by_cases hlt : i < fa.length
        · by_cases hmem : i ∈ idxWhere groups (fun x => x = g)
          · right; simp [hlt, hmem]; omega
          · left; simp [hlt, hmem]
        · left
          simp only [hlt, if_false]
          rw [List.getD_eq_default _ _ (Nat.le_of_not_lt hlt)]
      · exact Or.inr h
    · intro hig hifa hmem
      rcases List.mem_cons.mp hmem with hg | hgs
      · have himem : i ∈ idxWhere groups (fun x => x = g) := by
          rw [mem_idxWhere]
          refine ⟨hig, ?_⟩
          show decide (groups.getD i 0 = g) = true
          rw [hg]
          simp
        have hval : (setAll fa (idxWhere groups (fun x => x = g)) c).getD i 0 = c := by
          rw [hset]; simp [hifa, himem]
        rcases ihi.1 with h | h
        · rw [h, hval]; exact ⟨h0, h1⟩
        · exact h
      · exact ihi.2 hig (by rw [setAll_length]; exact hifa) hgs

/-- Samples with equal group labels evolve identically through the inner loop. -/
theorem innerLoop_eq_on_group (nSplits : ℕ) (groups : List ℕ) :
    ∀ (gs : List ℕ) (fa : List ℤ) (c : ℤ), fa.length = groups.length →
      (∀ i j, i < groups.length → j < groups.length →
        groups.getD i 0 = groups.getD j 0 → fa.getD i 0 = fa.getD j 0) →
      ∀ i j, i < groups.length → j < groups.length →
        groups.getD i 0 = groups.getD j 0 →
        (innerLoop nSplits groups gs fa c).1.getD i 0 =
          (innerLoop nSplits groups gs fa c).1.getD j 0 := by
  intro gs
  induction gs with
  | nil => intro fa c _ heq i j hi hj hg; exact heq i j hi hj hg
  | cons g gs ih =>
    intro fa c hlen heq i j hi hj hg
    rw [innerLoop_cons]
    refine ih _ _ (by rw [setAll_length]; exact hlen) ?_ i j hi hj hg
    intro i' j' hi' hj' hg'
    rw [setAll_getD, setAll_getD]
    have hmem : i' ∈ idxWhere groups (fun x => x = g) ↔
        j' ∈ idxWhere groups (fun x => x = g) := by
      rw [mem_idxWhere, mem_idxWhere]
      constructor
      · rintro ⟨_, hp⟩
        refine ⟨hj', ?_⟩
        show decide (groups.getD j' 0 = g) = true
        rw [← hg']
        exact hp
      · rintro ⟨_, hp⟩
        refine ⟨hi', ?_⟩
        show decide (groups.getD i' 0 = g) = true
        rw [hg']
        exact hp
    rw [if_pos (show i' < fa.length by omega), if_pos (show j' < fa.length by omega)]
    by_cases hm : i' ∈ idxWhere groups (fun x => x = g)
    · rw [if_pos hm, if_pos (hmem.mp hm)]
    · rw [if_neg hm, if_neg (fun h => hm (hmem.mpr h))]
      exact heq i' j' hi' hj' hg'

/-- Entries whose group does not occur in `gs` are untouched by the inner loop. -/
theorem innerLoop_untouched (nSplits : ℕ) (groups : List ℕ) :
    ∀ (gs : List ℕ) (fa : List ℤ) (c : ℤ) {i : ℕ}, i < fa.length →
      groups.getD i 0 ∉ gs →
      (innerLoop nSplits groups gs fa c).1.getD i 0 = fa.getD i 0 := by
  intro gs
  induction gs with
  | nil => intro fa c i _ _; rfl
  | cons g gs ih =>
    intro fa c i hlt hnot
    rw [innerLoop_cons]
    have hni : i ∉ idxWhere groups (fun x => x = g) := by
      intro hmem
      rcases mem_idxWhere.mp hmem with ⟨_, hp⟩
      have : groups.getD i 0 = g := by simpa using hp
      exact hnot (by rw [this]; exact List.mem_cons_self _ _)
    rw [ih _ _ (by rw [setAll_length]; exact hlt)
      (fun h => hnot (List.mem_cons_of_mem _ h)), setAll_getD,
      if_pos hlt, if_neg hni]

/-- Round-robin position: when `gs` has no duplicates, a sample whose group is
the `k`-th element of `gs` ends up in fold `(c + k) % nSplits`. -/
theorem innerLoop_indexOf (nSplits : ℕ) (groups : List ℕ) (hn : 0 < nSplits) :
    ∀ (gs : List ℕ) (fa : List ℤ) (c : ℤ), 0 ≤ c → c < nSplits → gs.Nodup →
      ∀ i : ℕ, i < groups.length → i < fa.length → groups.getD i 0 ∈ gs →
      (innerLoop nSplits groups gs fa c).1.getD i 0 =
        (c + (gs.indexOf (groups.getD i 0) : ℤ)) % nSplits := by
  intro gs
  induction gs with
  | nil => intro fa c _ _ _ i _ _ h; exact absurd h (List.not_mem_nil _)
  | cons g gs ih =>
    intro fa c h0 h1 hnd i hig hifa hmem
    have hnz : (nSplits : ℤ) ≠ 0 := by exact_mod_cast Nat.pos_iff_ne_zero.mp hn
    rw [innerLoop_cons]
    by_cases hg : groups.getD i 0 = g
    · have himem : i ∈ idxWhere groups (fun x => x = g) := by
        rw [mem_idxWhere]
        refine ⟨hig, ?_⟩
        show decide (groups.getD i 0 = g) = true
        rw [hg]; simp
      have hnotin : groups.getD i 0 ∉ gs := by
        rw [hg]; exact (List.nodup_cons.mp hnd).1
      rw [innerLoop_untouched nSplits groups gs _ _
        (by rw [setAll_length]; exact hifa) hnotin, setAll_getD,
        if_pos hifa, if_pos himem]
      rw [hg, List.indexOf_cons_self]
      simpa using (Int.emod_eq_of_lt h0 h1).symm
    · have hmem' : groups.getD i 0 ∈ gs := by
        rcases List.mem_cons.mp hmem with h | h
        · exact absurd h hg
        · exact h
      rw [ih _ _ (Int.emod_nonneg _ hnz) (Int.emod_lt_of_pos _ (by exact_mod_cast hn))
        (List.nodup_cons.mp hnd).2 i hig (by rw [setAll_length]; exact hifa) hmem']
      rw [List.indexOf_cons_ne _ (fun h => hg h.symm)]
      push_cast
      rw [int_emod_add_left]
      ring_nf


theorem foldAssignments_eq_outerLoop (nSplits nSamples : ℕ) (groups gtypes : List ℕ) :
    foldAssignments nSplits nSamples groups gtypes =
      outerLoop nSplits groups gtypes (npUnique gtypes)
        (List.replicate nSamples (-1 : ℤ)) := rfl

theorem outerLoop_nil (nSplits : ℕ) (groups gtypes : List ℕ) (fa : List ℤ) :
    outerLoop nSplits groups gtypes [] fa = fa := rfl

theorem outerLoop_cons (nSplits : ℕ) (groups gtypes : List ℕ) (t : ℕ) (ts : List ℕ)
    (fa : List ℤ) :
    outerLoop nSplits groups gtypes (t :: ts) fa =
      outerLoop nSplits groups gtypes ts
        (innerLoop nSplits groups (typeGroupsOf groups gtypes t) fa 0).1 := rfl

theorem outerLoop_length (nSplits : ℕ) (groups gtypes : List ℕ) :
    ∀ (ts : List ℕ) (fa : List ℤ),
      (outerLoop nSplits groups gtypes ts fa).length = fa.length := by
  intro ts
  induction ts with
  | nil => intro fa; rfl
  | cons t ts ih =>
    intro fa
    rw [outerLoop_cons, ih, innerLoop_length]

theorem mem_typeGroupsOf_self (groups gtypes : List ℕ) {i : ℕ}
    (_hig : i < groups.length) (higt : i < gtypes.length) :
    groups.getD i 0 ∈ typeGroupsOf groups gtypes (gtypes.getD i 0) := by
  rw [typeGroupsOf, npUnique_mem]
  apply List.mem_map.mpr
  refine ⟨i, ?_, rfl⟩
  rw [mem_idxWhere]
  refine ⟨higt, ?_⟩
  show decide (gtypes.getD i 0 = gtypes.getD i 0) = true
  simp

/-- Value evolution through the outer loop: entries are untouched or in range;
entries whose type occurs in `ts` end up with a fold in `[0, nSplits)`. -/
theorem outerLoop_getD (nSplits : ℕ) (groups gtypes : List ℕ) (hn : 0 < nSplits) :
    ∀ (ts : List ℕ) (fa : List ℤ), ∀ i : ℕ,
      ((outerLoop nSplits groups gtypes ts fa).getD i 0 = fa.getD i 0 ∨
        (0 ≤ (outerLoop nSplits groups gtypes ts fa).getD i 0 ∧
          (outerLoop nSplits groups gtypes ts fa).getD i 0 < nSplits)) ∧
      (i < groups.length → i < gtypes.length → i < fa.length →
        gtypes.getD i 0 ∈ ts →
        0 ≤ (outerLoop nSplits groups gtypes ts fa).getD i 0 ∧
          (outerLoop nSplits groups gtypes ts fa).getD i 0 < nSplits) := by
  intro ts
  induction ts with
  | nil =>
    intro fa i
    exact ⟨Or.inl rfl, fun _ _ _ h => absurd h (List.not_mem_nil _)⟩
  | cons t ts ih =>
    intro fa i
    rw [outerLoop_cons]
    set fa' := (innerLoop nSplits groups (typeGroupsOf groups gtypes t) fa 0).1 with hfa'
    have hinner := innerLoop_getD nSplits groups hn (typeGroupsOf groups gtypes t)
      fa 0 le_rfl (by exact_mod_cast hn) i
    have ihi := ih fa' i
    constructor
    · rcases ihi.1 with h | h
      · rw [h]
        exact hinner.1
      · exact Or.inr h
    · intro hig higt hifa hmem
      rcases List.mem_cons.mp hmem with ht | hts
      · have hcov := hinner.2 hig hifa (by rw [← ht]; exact mem_typeGroupsOf_self groups gtypes hig higt)
        rcases ihi.1 with h | h
        · rw [h]; exact hcov
        · exact h
      · exact ihi.2 hig higt (by rw [hfa', innerLoop_length]; exact hifa) hts

/-- Samples with equal group labels evolve identically through the outer loop. -/
theorem outerLoop_eq_on_group (nSplits : ℕ) (groups gtypes : List ℕ) :
    ∀ (ts : List ℕ) (fa : List ℤ), fa.length = groups.length →
      (∀ i j, i < groups.length → j < groups.length →
        groups.getD i 0 = groups.getD j 0 → fa.getD i 0 = fa.getD j 0) →
      ∀ i j, i < groups.length → j < groups.length →
        groups.getD i 0 = groups.getD j 0 →
        (outerLoop nSplits groups gtypes ts fa).getD i 0 =
          (outerLoop nSplits groups gtypes ts fa).getD j 0 := by
  intro ts
  induction ts with
  | nil => intro fa _ heq i j hi hj hg; exact heq i j hi hj hg
  | cons t ts ih =>
    intro fa hlen heq i j hi hj hg
    rw [outerLoop_cons]
    refine ih _ (by rw [innerLoop_length]; exact hlen) ?_ i j hi hj hg
    intro i' j' hi' hj' hg'
    exact innerLoop_eq_on_group nSplits groups _ fa 0 hlen heq i' j' hi' hj' hg'

/-- With each group confined to a single group type, the final fold of a sample
is the sorted-order rank of its group among its type's unique groups, mod
`nSplits`. -/
theorem outerLoop_indexOf (nSplits : ℕ) (groups gtypes : List ℕ) (hn : 0 < nSplits)
    (hut : ∀ i, i < groups.length → ∀ j, j < groups.length →
      groups.getD i 0 = groups.getD j 0 → gtypes.getD i 0 = gtypes.getD j 0)
    (hgg : gtypes.length = groups.length) :
    ∀ (ts : List ℕ) (fa : List ℤ), ts.Nodup → fa.length = groups.length →
      ∀ i : ℕ, i < groups.length →
        ((gtypes.getD i 0 ∈ ts →
          (outerLoop nSplits groups gtypes ts fa).getD i 0 =
            (((typeGroupsOf groups gtypes (gtypes.getD i 0)).indexOf
              (groups.getD i 0) : ℤ)) % nSplits) ∧
        (gtypes.getD i 0 ∉ ts →
          (outerLoop nSplits groups gtypes ts fa).getD i 0 = fa.getD i 0)) := by
  intro ts
  induction ts with
  | nil =>
    intro fa _ _ i _
    exact ⟨fun h => absurd h (List.not_mem_nil _), fun _ => rfl⟩
  | cons t ts ih =>
    intro fa hnd hlen i hig
    have higt : i < gtypes.length := by omega
    have hifa : i < fa.length := by omega
    rw [outerLoop_cons]
    set fa' := (innerLoop nSplits groups (typeGroupsOf groups gtypes t) fa 0).1 with hfa'
    have hlen' : fa'.length = groups.length := by
      rw [hfa', innerLoop_length]; exact hlen
    have ihi := ih fa' (List.nodup_cons.mp hnd).2 hlen' i hig
    by_cases ht : gtypes.getD i 0 = t
    · have hvali : fa'.getD i 0 =
          (((typeGroupsOf groups gtypes (gtypes.getD i 0)).indexOf
            (groups.getD i 0) : ℤ)) % nSplits := by
        rw [hfa', ← ht]
        have := innerLoop_indexOf nSplits groups hn
          (typeGroupsOf groups gtypes (gtypes.getD i 0)) fa 0 le_rfl
          (by exact_mod_cast hn) (npUnique_nodup _) i hig hifa
          (mem_typeGroupsOf_self groups gtypes hig higt)
        rw [this]
        ring_nf
      have hnotin : gtypes.getD i 0 ∉ ts := by
        rw [ht]; exact (List.nodup_cons.mp hnd).1
      refine ⟨fun _ => ?_, fun hniff => absurd (by rw [ht]; exact List.mem_cons_self _ _) hniff⟩
      rw [ihi.2 hnotin, hvali]
    · have huntouched : fa'.getD i 0 = fa.getD i 0 := by
        rw [hfa']
        apply innerLoop_untouched nSplits groups _ fa 0 hifa
        intro hmem
        rcases List.mem_map.mp ((npUnique_mem).mp hmem) with ⟨j, hjmem, hjval⟩
        rcases mem_idxWhere.mp hjmem with ⟨hjlt, hjp⟩
        have hjt : gtypes.getD j 0 = t := by simpa using hjp
        have : gtypes.getD i 0 = gtypes.getD j 0 :=
          hut i hig j (by omega) hjval.symm
        rw [this, hjt] at ht
        exact ht rfl
      constructor
      · intro hmem
        rcases List.mem_cons.mp hmem with h | h
        · exact absurd h ht
        · rw [(ih fa' (List.nodup_cons.mp hnd).2 hlen' i hig).1 h]
      · intro hniff
        have hnts : gtypes.getD i 0 ∉ ts := fun h => hniff (List.mem_cons_of_mem _ h)
        rw [ihi.2 hnts, huntouched]

theorem getD_replicate_of_lt {n i : ℕ} {a d : ℤ} (h : i < n) :
    (List.replicate n a).getD i d = a := by
  rw [List.getD_eq_getElem _ _ (by simpa using h)]
  simp

theorem foldAssignments_length (nSplits nSamples : ℕ) (groups gtypes : List ℕ) :
    (foldAssignments nSplits nSamples groups gtypes).length = nSamples := by
  rw [foldAssignments_eq_outerLoop, outerLoop_length, List.length_replicate]

theorem getD_mem_of_lt {l : List ℕ} {i : ℕ} (h : i < l.length) : l.getD i 0 ∈ l := by
  rw [List.getD_eq_getElem _ _ h]
  exact List.getElem_mem h

/-- Every sample receives a fold in `[0, nSplits)`. -/
theorem foldAssignments_range (nSplits : ℕ) (groups gtypes : List ℕ)
    (hn : 0 < nSplits) (hgg : gtypes.length = groups.length) :
    ∀ i, i < groups.length →
      0 ≤ (foldAssignments nSplits groups.length groups gtypes).getD i 0 ∧
        (foldAssignments nSplits groups.length groups gtypes).getD i 0 < nSplits := by
  intro i hi
  rw [foldAssignments_eq_outerLoop]
  exact (outerLoop_getD nSplits groups gtypes hn (npUnique gtypes)
    (List.replicate groups.length (-1 : ℤ)) i).2 hi (by omega)
    (by rw [List.length_replicate]; exact hi)
    (npUnique_mem.mpr (getD_mem_of_lt (by omega)))

/-- Samples of the same group receive the same fold. -/
theorem foldAssignments_sameGroup (nSplits : ℕ) (groups gtypes : List ℕ) :
    ∀ i j, i < groups.length → j < groups.length →
      groups.getD i 0 = groups.getD j 0 →
      (foldAssignments nSplits groups.length groups gtypes).getD i 0 =
        (foldAssignments nSplits groups.length groups gtypes).getD j 0 := by
  intro i j hi hj hg
  rw [foldAssignments_eq_outerLoop]
  refine outerLoop_eq_on_group nSplits groups gtypes (npUnique gtypes) _
    (List.length_replicate _ _) ?_ i j hi hj hg
  intro i' j' h1 h2 _
  rw [getD_replicate_of_lt h1, getD_replicate_of_lt h2]

theorem mem_idxWhere_eqz {l : List ℤ} {z : ℤ} {i : ℕ} :
    i ∈ idxWhere l (fun v => v = z) ↔ i < l.length ∧ l.getD i 0 = z := by
  rw [mem_idxWhere]
  simp

theorem mem_idxWhere_nez {l : List ℤ} {z : ℤ} {i : ℕ} :
    i ∈ idxWhere l (fun v => v ≠ z) ↔ i < l.length ∧ l.getD i 0 ≠ z := by
  rw [mem_idxWhere]
  simp

theorem split_getD (nSplits nSamples : ℕ) (groups gtypes : List ℕ) {f : ℕ}
    (hf : f < nSplits) (d : List ℕ × List ℕ) :
    (GroupTypeKFold.split nSplits nSamples groups gtypes).getD f d =
      (idxWhere (foldAssignments nSplits nSamples groups gtypes) (fun v => v ≠ (f : ℤ)),
       idxWhere (foldAssignments nSplits nSamples groups gtypes) (fun v => v = (f : ℤ))) := by
  simp only [GroupTypeKFold.split]
  rw [getD_map_range, if_pos hf]

/-- C5: for groups `[1,1,2,2,3,3]` and group types `[A,A,A,A,B,B]` (encoded
`[0,0,0,0,1,1]`) with `n_splits = 2`, `GroupTypeKFold.split` assigns group 1 to
fold 0, group 2 to fold 1 and group 3 to fold 0 (first conjunct, the concrete
output); and for every input with positive `n_splits` and matching lengths,
every sample index lies in exactly one fold's test set, samples of one group
always fall in the same fold's test set, and each fold's train indices are the
exact complement of its test indices among all sample indices. -/
theorem C5_split_example_and_partition :
    (GroupTypeKFold.split 2 6 [1, 1, 2, 2, 3, 3] [0, 0, 0, 0, 1, 1] =
      [([2, 3], [0, 1, 4, 5]), ([0, 1, 4, 5], [2, 3])])
    ∧ (∀ (nSplits : ℕ) (groups gtypes : List ℕ), 0 < nSplits →
        gtypes.length = groups.length →
        (∀ i, i < groups.length →
          ∃! f : ℕ, f < nSplits ∧
            i ∈ ((GroupTypeKFold.split nSplits groups.length groups gtypes).getD
              f ([], [])).2)
        ∧ (∀ i j f, i < groups.length → j < groups.length → f < nSplits →
            groups.getD i 0 = groups.getD j 0 →
            (i ∈ ((GroupTypeKFold.split nSplits groups.length groups gtypes).getD
                f ([], [])).2 ↔
              j ∈ ((GroupTypeKFold.split nSplits groups.length groups gtypes).getD
                f ([], [])).2))
        ∧ (∀ f, f < nSplits → ∀ i,
            (i ∈ ((GroupTypeKFold.split nSplits groups.length groups gtypes).getD
                f ([], [])).1 ↔
              (i < groups.length ∧
                i ∉ ((GroupTypeKFold.split nSplits groups.length groups gtypes).getD
                  f ([], [])).2)))) := by
  constructor
  · decide
  · intro nSplits groups gtypes hn hgg
    have hlen := foldAssignments_length nSplits groups.length groups gtypes
    refine ⟨?_, ?_, ?_⟩
    · intro i hi
      obtain ⟨h0, h1⟩ := foldAssignments_range nSplits groups gtypes hn hgg i hi
      refine ⟨((foldAssignments nSplits groups.length groups gtypes).getD i 0).toNat,
        ⟨by omega, ?_⟩, ?_⟩
      · rw [split_getD nSplits groups.length groups gtypes (by omega) ([], [])]
        exact mem_idxWhere_eqz.mpr ⟨by omega, by omega⟩
      · rintro f ⟨hfn, hfmem⟩
        rw [split_getD nSplits groups.length groups gtypes hfn ([], [])] at hfmem
        obtain ⟨-, heq⟩ := mem_idxWhere_eqz.mp hfmem
        omega
    · intro i j f hi hj hf hg
      have hsame := foldAssignments_sameGroup nSplits groups gtypes i j hi hj hg
      rw [split_getD nSplits groups.length groups gtypes hf ([], []),
        mem_idxWhere_eqz, mem_idxWhere_eqz, hsame]
      constructor
      · rintro ⟨-, h⟩
        exact ⟨by omega, h⟩
      · rintro ⟨-, h⟩
        exact ⟨by omega, h⟩
    · intro f hf i
      rw [split_getD nSplits groups.length groups gtypes hf ([], []),
        mem_idxWhere_nez, mem_idxWhere_eqz]
      constructor
      · rintro ⟨hlt, hne⟩
        exact ⟨by omega, fun hmem => hne hmem.2⟩
      · rintro ⟨hlt, hnmem⟩
        exact ⟨by omega, fun heq => hnmem ⟨by omega, heq⟩⟩

/-- Counterexample to C4: for groups `[2, 1]` of a single group type, the
first-appearance round-robin order predicted by the claim puts group 2 in fold
0 and group 1 in fold 1, but `np.unique` sorts, so the code puts group 1 in
fold 0 and group 2 in fold 1. -/
theorem C4_split_not_first_appearance_order :
    GroupTypeKFold.split 2 2 [2, 1] [0, 0] = [([0], [1]), ([1], [0])] ∧
    GroupTypeKFold.splitFirstAppearance 2 2 [2, 1] [0, 0] = [([1], [0]), ([0], [1])] ∧
    GroupTypeKFold.split 2 2 [2, 1] [0, 0] ≠
      GroupTypeKFold.splitFirstAppearance 2 2 [2, 1] [0, 0] := by decide

/-- C4 (amended): `GroupTypeKFold.split` is deterministic (a function of its
inputs) and, within each group type, assigns that type's unique groups to
folds round-robin in ascending sorted order of the group values (`np.unique`
order), not first-appearance order: with each group confined to one group
type, sample `i`'s fold is the rank of its group among its type's sorted
unique groups, mod `n_splits`. -/
theorem C4_split_round_robin_sorted_order (nSplits : ℕ) (groups gtypes : List ℕ) (hn : 0 < nSplits)
    (hgg : gtypes.length = groups.length)
    (hut : ∀ i, i < groups.length → ∀ j, j < groups.length →
      groups.getD i 0 = groups.getD j 0 → gtypes.getD i 0 = gtypes.getD j 0) :
    ∀ i, i < groups.length →
      (foldAssignments nSplits groups.length groups gtypes).getD i 0 =
        ((typeGroupsOf groups gtypes (gtypes.getD i 0)).indexOf (groups.getD i 0) : ℤ)
          % nSplits := by
  intro i hi
  rw [foldAssignments_eq_outerLoop]
  exact (outerLoop_indexOf nSplits groups gtypes hn hut hgg (npUnique gtypes)
    (List.replicate groups.length (-1)) (npUnique_nodup _)
    (List.length_replicate _ _) i hi).1
    (npUnique_mem.mpr (getD_mem_of_lt (by omega)))

/-- Witness for C4 (amended) at the concrete C5 fixture, sample 2. -/
theorem C4_split_round_robin_sorted_order_witness :
    (foldAssignments 2 6 [1, 1, 2, 2, 3, 3] [0, 0, 0, 0, 1, 1]).getD 2 0 =
      ((typeGroupsOf [1, 1, 2, 2, 3, 3] [0, 0, 0, 0, 1, 1]
        (([0, 0, 0, 0, 1, 1] : List ℕ).getD 2 0)).indexOf
          (([1, 1, 2, 2, 3, 3] : List ℕ).getD 2 0) : ℤ) % 2 := by
  have h := C4_split_round_robin_sorted_order 2 [1, 1, 2, 2, 3, 3] [0, 0, 0, 0, 1, 1]
    (by decide) (by decide) (by decide) 2 (by decide)
  simpa using h

/-- Witness for C5 at the concrete fixture: sample 0 lies in exactly one test
set and fold 0's train set is the complement of its test set. -/
theorem C5_split_example_and_partition_witness :
    (0 : ℕ) < 2 ∧
    ([0, 0, 0, 0, 1, 1] : List ℕ).length = ([1, 1, 2, 2, 3, 3] : List ℕ).length ∧
    (∃! f : ℕ, f < 2 ∧
      0 ∈ ((GroupTypeKFold.split 2 6 [1, 1, 2, 2, 3, 3] [0, 0, 0, 0, 1, 1]).getD
        f ([], [])).2) ∧
    (0 ∈ ((GroupTypeKFold.split 2 6 [1, 1, 2, 2, 3, 3] [0, 0, 0, 0, 1, 1]).getD
        0 ([], [])).1 ↔
      (0 < 6 ∧
        0 ∉ ((GroupTypeKFold.split 2 6 [1, 1, 2, 2, 3, 3] [0, 0, 0, 0, 1, 1]).getD
          0 ([], [])).2)) := by
  have h := C5_split_example_and_partition.2 2 [1, 1, 2, 2, 3, 3] [0, 0, 0, 0, 1, 1] (by decide) (by decide)
  exact ⟨by decide, by decide, h.1 0 (by decide), h.2.2 0 (by decide) 0⟩

/-! ## Claim theorems: trial demarcation, concrete parts -/

/-- C1 (failing-input evaluation): with the trial table `[0,2) ↦ 0`,
`[4,6) ↦ 1` (non-overlapping, sorted by start), the sample at time 5 lies
strictly inside trial 1's interval, yet on the unsorted input table (times
`[5, 1]`, default index `[0, 1]`) `demarcate_trials` assigns it trial index 0
and assigns the sample at time 1 trial index 1 — the two assignments are
swapped.  The cause: `sort_values` keeps the original row labels while the
`merge_asof` result carries a fresh RangeIndex, so the label-aligned column
assignment `df_ts[created] = series` permutes the computed series.  On the
already-sorted table (second conjunct) the assignment is the correct one. -/
theorem C1_demarcate_trials_misassigns_unsorted_input :
    demarcate_trials tsUnsortedEx trialsEx =
      .ok ⟨["time", "trial_idx"], [1, 0], [[some 1, some 1], [some 5, some 0]]⟩ ∧
    demarcate_trials tsSortedEx trialsEx =
      .ok ⟨["time", "trial_idx"], [0, 1], [[some 1, some 0], [some 5, some 1]]⟩ := by
  with_unfolding_all decide

/-- Counterexample to C2: the first `demarcate_trials` run succeeds, but
running it again on its own output with the same column parameters raises a
key error: the output now owns a `trial_idx` column, so the merge with the
trial table's `trial_idx` column suffixes both to `trial_idx_x`/`trial_idx_y`
and the subsequent `merged_start["trial_idx"]` lookup fails. -/
theorem C2_demarcate_trials_second_run_raises :
    (demarcate_trials tsSortedEx trialsEx).isOk = true ∧
    (do
      let d ← demarcate_trials tsSortedEx trialsEx
      demarcate_trials d trialsEx : Except String DFrame) =
      .error "KeyError: trial_idx" := by
  with_unfolding_all decide

/-- Counterexample to C6: trials `[0,1) ↦ 0` and `[1,2) ↦ 1` are proper,
non-overlapping and sorted by start, but touch at time 1.  The sample exactly
at trial 1's start boundary (time 1) is left unassigned: the forward
(last-preceding-start) match yields trial 1, while the backward
(inverted-time) match yields trial 0, whose end also equals 1, so the
agreement gate erases the index. -/
theorem C6_boundary_sample_unassigned_at_touching_trials :
    demarcate_trials tsBoundaryEx trialsTouchEx =
      .ok ⟨["time", "trial_idx"], [0], [[some 1, none]]⟩ := by
  with_unfolding_all decide

/-- C3 (failing-input evaluation): calling `demarcate_latency_from_event` with
a requested event-index column (`created_event_idx_col = "event_idx"`) raises
a key error instead of returning the reordered table: after the temporary
column `event_idx_TEMP` is renamed to the requested name, the column
reordering step still selects the now-absent name `event_idx_TEMP`.  The same
call without a requested event-index column succeeds with columns ordered
time, latency, remaining (second conjunct), so the failure is precisely on the
requested-column path the claim describes. -/
theorem C3_latency_event_idx_reorder_raises :
    demarcate_latency_from_event tsLatEx eventsLatEx "start_time" 0 10100 "time"
      none (some "event_idx") false 1 false = .error "KeyError: column selection" ∧
    demarcate_latency_from_event tsLatEx eventsLatEx "start_time" 0 10100 "time"
      none none false 1 false =
      .ok ⟨["time", "latency_from_start_time", "x"], [0, 1],
           [[some 0, some 0, some 5], [some 1, some 1, some 6]]⟩ := by
  with_unfolding_all decide

/-- C10: `demarcate_trials` leaves both caller tables unchanged.  In the
heap-instrumented rendering of the source (one pandas statement per step,
allocation vs in-place mutation made explicit), the caller's two dataframe
objects sit in heap slots 0 and 1, and on every path — error or success —
those two slots still hold exactly the original tables at the end: the sort,
the temporary inverted-time columns, and the created trial-index column exist
only on the `sort_values` copies and the returned frame. -/
theorem C10_demarcate_trials_inputs_unchanged (df_ts df_trials : DFrame)
    (tc sc ec ic : String) (created : Option String) :
    (demarcate_trials_heap df_ts df_trials tc sc ec ic created).1.getD 0 default
        = df_ts ∧
    (demarcate_trials_heap df_ts df_trials tc sc ec ic created).1.getD 1 default
        = df_trials := by
  simp only [demarcate_trials_heap]
  repeat' split
  all_goals exact ⟨rfl, rfl⟩

/-- The heap-instrumented rendering and the direct rendering of
`demarcate_trials` return the same result on the demarcation fixtures
(success, misaligned, and error paths). -/
theorem demarcate_trials_heap_agrees_on_fixtures :
    (demarcate_trials_heap tsSortedEx trialsEx "time" "start_time"
        "reward_collection_time" "trial_idx" none).2 =
      demarcate_trials tsSortedEx trialsEx ∧
    (demarcate_trials_heap tsUnsortedEx trialsEx "time" "start_time"
        "reward_collection_time" "trial_idx" none).2 =
      demarcate_trials tsUnsortedEx trialsEx ∧
    (demarcate_trials_heap tsBoundaryEx trialsTouchEx "time" "start_time"
        "reward_collection_time" "trial_idx" none).2 =
      demarcate_trials tsBoundaryEx trialsTouchEx := by
  with_unfolding_all decide


/-! ## Characterization of `demarcate_trials` on clean inputs, and the
amended C2 and C6 theorems -/

theorem colIdx_eq_none_iff {cols : List String} {c : String} :
    colIdx cols c = none ↔ c ∉ cols := by
  induction cols with
  | nil => simp [colIdx]
  | cons a as ih =>
    simp only [colIdx, List.mem_cons]
    by_cases h : a = c
    · simp [h]
    · rw [if_neg h, Option.map_eq_none', ih]
      constructor
      · intro hnot hmem
        rcases hmem with heq | hm
        · exact h heq.symm
        · exact hnot hm
      · intro hnot hm
        exact hnot (Or.inr hm)

theorem colIdx_isSome_iff {cols : List String} {c : String} :
    (colIdx cols c).isSome = true ↔ c ∈ cols := by
  rcases h : colIdx cols c with _ | j
  · simp [colIdx_eq_none_iff.mp h]
  · simp only [Option.isSome_some, true_iff]
    by_contra hc
    rw [colIdx_eq_none_iff.mpr hc] at h
    cases h

theorem colIdx_append_left {cols1 : List String} (cols2 : List String) {c : String} :
    ∀ {j : ℕ}, colIdx cols1 c = some j → colIdx (cols1 ++ cols2) c = some j := by
  induction cols1 with
  | nil => intro j h; cases h
  | cons a as ih =>
    intro j h
    simp only [colIdx, List.cons_append] at h ⊢
    by_cases ha : a = c
    · rw [if_pos ha] at h ⊢
      exact h
    · rw [if_neg ha] at h ⊢
      rcases hj : colIdx as c with _ | j'
      · rw [hj] at h
        cases h
      · rw [hj] at h
        simp only [List.append_eq]
        rw [ih hj]
        simpa using h

theorem colIdx_append_right {cols1 : List String} (cols2 : List String) {c : String}
    (h : c ∉ cols1) :
    colIdx (cols1 ++ cols2) c = (colIdx cols2 c).map (· + cols1.length) := by
  induction cols1 with
  | nil =>
    simp only [List.nil_append, List.length_nil]
    rcases colIdx cols2 c with _ | j <;> simp
  | cons a as ih =>
    have ha : a ≠ c := fun hc => h (by rw [hc]; exact List.mem_cons_self _ _)
    have h' : c ∉ as := fun hc => h (List.mem_cons_of_mem _ hc)
    simp only [List.cons_append, colIdx, ha, if_false, List.append_eq, ih h',
      List.length_cons]
    rcases colIdx cols2 c with _ | j
    · simp
    · simp only [Option.map_some']
      congr 1

theorem getCell_append_right {r s : List Val} {k : ℕ} :
    getCell (r ++ s) (r.length + k) = getCell s k := by
  rw [getCell, getCell, List.getD_eq_getElem?_getD, List.getD_eq_getElem?_getD,
    List.getElem?_append_right (Nat.le_add_right _ _), Nat.add_sub_cancel_left]

theorem getCell_append_left {r s : List Val} {j : ℕ} (h : j < r.length) :
    getCell (r ++ s) j = getCell r j := by
  rw [getCell, getCell, List.getD_eq_getElem?_getD, List.getD_eq_getElem?_getD,
    List.getElem?_append_left h]

/-! ### Sorting lemmas -/

theorem vleB_total (a b : Val) : vleB a b = true ∨ vleB b a = true := by
  rcases a with _ | x <;> rcases b with _ | y <;> simp [vleB]
  exact le_total x y

theorem vleB_trans {a b c : Val} (h1 : vleB a b = true) (h2 : vleB b c = true) :
    vleB a c = true := by
  rcases a with _ | x <;> rcases b with _ | y <;> rcases c with _ | z <;>
    simp [vleB] at h1 h2 ⊢
  exact le_trans h1 h2

theorem vltB_le {a b : Val} (h : vltB a b = true) : vleB a b = true := by
  rcases a with _ | x <;> rcases b with _ | y <;> simp [vltB, vleB] at h ⊢
  exact le_of_lt h

theorem vltB_not_ge {a b : Val} (h : vltB a b = true) : ¬ vleB b a = true := by
  rcases a with _ | x <;> rcases b with _ | y <;> simp [vltB, vleB] at h ⊢
  exact h

/-- A sorted permutation of a strictly-increasing list equals it. -/
theorem eq_of_perm_sorted_strict {α : Type} {le lt : α → α → Prop}
    (hcompat : ∀ a b, lt a b → le a b) (hexcl : ∀ a b, lt a b → ¬ le b a) :
    ∀ {l1 l2 : List α}, l1.Perm l2 → l1.Sorted le → l2.Pairwise lt → l1 = l2 := by
  intro l1
  induction l1 with
  | nil =>
    intro l2 hp _ _
    exact (List.Perm.nil_eq hp)
  | cons a t1 ih =>
    intro l2 hp hs1 hs2
    cases l2 with
    | nil => exact absurd hp.symm (by simp)
    | cons b t2 =>
      have hab : a = b := by
        have hamem : a ∈ b :: t2 := hp.mem_iff.mp (List.mem_cons_self _ _)
        rcases List.mem_cons.mp hamem with h | h
        · exact h
        · exfalso
          have hlt : lt b a := (List.pairwise_cons.mp hs2).1 a h
          have hbmem : b ∈ a :: t1 := hp.mem_iff.mpr (List.mem_cons_self _ _)
          rcases List.mem_cons.mp hbmem with h2 | h2
          · rw [h2] at hlt
            exact hexcl a a hlt (hcompat a a hlt)
          · exact hexcl b a hlt (List.rel_of_sorted_cons hs1 b h2)
      subst hab
      have hp' : t1.Perm t2 := hp.cons_inv
      rw [ih hp' hs1.of_cons (List.pairwise_cons.mp hs2).2]

theorem pairwise_zip_right {α β : Type} {P : β → β → Prop} :
    ∀ (l1 : List α) {l2 : List β}, l2.Pairwise P →
      (l1.zip l2).Pairwise (fun p q => P p.2 q.2) := by
  intro l1
  induction l1 with
  | nil => intro l2 _; simp
  | cons a t1 ih =>
    intro l2 h2
    cases l2 with
    | nil => simp
    | cons b t2 =>
      rw [List.zip_cons_cons]
      refine List.pairwise_cons.mpr ⟨?_, ih (List.pairwise_cons.mp h2).2⟩
      intro q hq
      exact (List.pairwise_cons.mp h2).1 q.2 (List.of_mem_zip hq).2

/-- `sort_values` is the identity on a frame already sorted by the key
column. -/
theorem sortValues_sorted_eq (df : DFrame) (c : String) {j : ℕ}
    (hj : colIdx df.cols c = some j)
    (hlen : df.index.length = df.rows.length)
    (hsorted : df.rows.Pairwise (fun r s => vleB (getCell r j) (getCell s j) = true)) :
    df.sortValues c = .ok df := by
  simp only [DFrame.sortValues, hj]
  have hpairs : (df.index.zip df.rows).Sorted
      (fun p q : ℤ × List Val => vleB (getCell p.2 j) (getCell q.2 j) = true) :=
    pairwise_zip_right df.index hsorted
  rw [List.Sorted.insertionSort_eq hpairs, List.map_fst_zip _ _ (le_of_eq hlen),
    List.map_snd_zip _ _ (ge_of_eq hlen)]

/-- `sort_values` reverses a frame whose key column is strictly decreasing. -/
theorem sortValues_desc_eq_reverse (df : DFrame) (c : String) {j : ℕ}
    (hj : colIdx df.cols c = some j)
    (hlen : df.index.length = df.rows.length)
    (hdesc : df.rows.Pairwise (fun r s => vltB (getCell s j) (getCell r j) = true)) :
    df.sortValues c = .ok df.reverseRows := by
  simp only [DFrame.sortValues, hj]
  have htot : IsTotal (ℤ × List Val)
      (fun p q => vleB (getCell p.2 j) (getCell q.2 j) = true) :=
    ⟨fun p q => vleB_total _ _⟩
  have htrans : IsTrans (ℤ × List Val)
      (fun p q => vleB (getCell p.2 j) (getCell q.2 j) = true) :=
    ⟨fun _ _ _ => vleB_trans⟩
  have hsorted :=
    @List.sorted_insertionSort (ℤ × List Val)
      (fun p q => vleB (getCell p.2 j) (getCell q.2 j) = true) _ htot htrans
      (df.index.zip df.rows)
  have hperm : (List.insertionSort
      (fun p q : ℤ × List Val => vleB (getCell p.2 j) (getCell q.2 j) = true)
      (df.index.zip df.rows)).Perm (df.index.zip df.rows).reverse :=
    (List.perm_insertionSort _ _).trans (List.reverse_perm _).symm
  have hrevlt : (df.index.zip df.rows).reverse.Pairwise
      (fun p q : ℤ × List Val => vltB (getCell p.2 j) (getCell q.2 j) = true) := by
    rw [List.pairwise_reverse]
    exact pairwise_zip_right df.index hdesc
  have heq := eq_of_perm_sorted_strict
    (fun a b h => vltB_le h) (fun a b h => vltB_not_ge h)
    hperm hsorted hrevlt
  rw [heq, DFrame.reverseRows, List.map_reverse, List.map_reverse,
    List.map_fst_zip _ _ (le_of_eq hlen), List.map_snd_zip _ _ (ge_of_eq hlen)]

/-! ### Frame-operation computation lemmas -/

theorem chainLE_of_pairwise {j : ℕ} :
    ∀ {rows : List (List Val)},
      rows.Pairwise (fun r s => vleB (getCell r j) (getCell s j) = true) →
      chainLE j rows = true := by
  intro rows
  induction rows with
  | nil => intro _; rfl
  | cons r rest ih =>
    intro h
    cases rest with
    | nil => rfl
    | cons q rest2 =>
      have h1 := (List.pairwise_cons.mp h).1 q (List.mem_cons_self _ _)
      have h2 := ih (List.pairwise_cons.mp h).2
      simp [chainLE, h1, h2]

theorem select_eq (df : DFrame) (sel : List String) (h : ∀ c ∈ sel, c ∈ df.cols) :
    df.select sel = .ok ⟨sel, df.index,
      df.rows.map (fun r => sel.map (fun c => getCell r ((colIdx df.cols c).getD 0)))⟩ := by
  rw [DFrame.select, if_pos]
  rw [List.all_eq_true]
  intro c hc
  exact colIdx_isSome_iff.mpr (h c hc)

theorem colE_eq (df : DFrame) (c : String) {j : ℕ} (hj : colIdx df.cols c = some j) :
    df.colE c = .ok (df.rows.map (fun r => getCell r j)) := by
  simp only [DFrame.colE, hj]

theorem colIdx_lt_length {cols : List String} {c : String} :
    ∀ {j : ℕ}, colIdx cols c = some j → j < cols.length := by
  induction cols with
  | nil => intro j h; cases h
  | cons a as ih =>
    intro j h
    simp only [colIdx] at h
    by_cases ha : a = c
    · rw [if_pos ha] at h
      cases h
      simp
    · rw [if_neg ha] at h
      rcases hj : colIdx as c with _ | j'
      · rw [hj] at h; cases h
      · rw [hj] at h
        simp only [Option.map_some'] at h
        cases h
        have := ih hj
        simpa using Nat.succ_lt_succ this

theorem colIdx_getElem {cols : List String} {c : String} :
    ∀ {j : ℕ}, colIdx cols c = some j → cols.getD j "" = c := by
  induction cols with
  | nil => intro j h; cases h
  | cons a as ih =>
    intro j h
    simp only [colIdx] at h
    by_cases ha : a = c
    · rw [if_pos ha] at h
      cases h
      simpa using ha
    · rw [if_neg ha] at h
      rcases hj : colIdx as c with _ | j'
      · rw [hj] at h; cases h
      · rw [hj] at h
        simp only [Option.map_some'] at h
        cases h
        simpa using ih hj

theorem colIdx_inj {cols : List String} {c1 c2 : String} {j1 j2 : ℕ}
    (h1 : colIdx cols c1 = some j1) (h2 : colIdx cols c2 = some j2)
    (hne : c1 ≠ c2) : j1 ≠ j2 := by
  intro heq
  apply hne
  rw [← colIdx_getElem h1, ← colIdx_getElem h2, heq]

theorem lookupLabel_cons_self {s : List (ℤ × Val)} {x : ℤ} {v : Val} :
    DFrame.lookupLabel ((x, v) :: s) x = v := by
  simp [DFrame.lookupLabel, List.find?_cons_of_pos]

theorem lookupLabel_cons_ne {s : List (ℤ × Val)} {p : ℤ × Val} {x : ℤ}
    (h : p.1 ≠ x) : DFrame.lookupLabel (p :: s) x = DFrame.lookupLabel s x := by
  simp only [DFrame.lookupLabel]
  rw [List.find?_cons_of_neg _ (by simpa using h)]

theorem map_lookupLabel_zip_self :
    ∀ (labels : List ℤ) (vals : List Val), labels.Nodup →
      labels.length = vals.length →
      labels.map (DFrame.lookupLabel (labels.zip vals)) = vals := by
  intro labels
  induction labels with
  | nil =>
    intro vals _ hlen
    cases vals with
    | nil => rfl
    | cons v vs => cases hlen
  | cons a ls ih =>
    intro vals hnd hlen
    cases vals with
    | nil => cases hlen
    | cons v vs =>
      simp only [List.zip_cons_cons, List.map_cons]
      congr 1
      · exact lookupLabel_cons_self
      · have htail : ls.map (DFrame.lookupLabel (((a, v) :: ls.zip vs))) =
            ls.map (DFrame.lookupLabel (ls.zip vs)) := by
          apply List.map_congr_left
          intro x hx
          have hxa : x ≠ a := by
            intro hxa
            rw [hxa] at hx
            exact (List.nodup_cons.mp hnd).1 hx
          exact lookupLabel_cons_ne (by simpa using hxa.symm)
        rw [htail]
        exact ih vs (List.nodup_cons.mp hnd).2 (by simpa using hlen)

theorem eraseIdx_append_middle {α : Type} :
    ∀ (r : List α) (v : α) (s : List α), (r ++ v :: s).eraseIdx r.length = r ++ s := by
  intro r
  induction r with
  | nil => intro v s; rfl
  | cons a as ih =>
    intro v s
    simp only [List.cons_append, List.length_cons, List.eraseIdx_cons_succ]
    rw [ih]

theorem set_append_left {α : Type} :
    ∀ (r : List α) (s : List α) (j : ℕ) (v : α), j < r.length →
      (r ++ s).set j v = r.set j v ++ s := by
  intro r
  induction r with
  | nil => intro s j v h; cases h
  | cons a as ih =>
    intro s j v h
    cases j with
    | zero => rfl
    | succ j' =>
      simp only [List.cons_append, List.set_cons_succ]
      rw [ih _ _ _ (by simpa using h)]

theorem zipWith_map_same {α β γ δ : Type} (h : β → γ → δ) (f : α → β) (g : α → γ) :
    ∀ (l : List α), List.zipWith h (l.map f) (l.map g) = l.map (fun x => h (f x) (g x)) := by
  intro l
  induction l with
  | nil => rfl
  | cons a t ih =>
    simp only [List.map_cons, List.zipWith_cons_cons, ih]

theorem zip_pred_of_map_eq {α β γ : Type} {f : α → γ} {g : β → γ} :
    ∀ {l1 : List α} {l2 : List β}, l1.map f = l2.map g →
      ∀ p ∈ l1.zip l2, f p.1 = g p.2 := by
  intro l1
  induction l1 with
  | nil => intro l2 _ p hp; simp at hp
  | cons a t1 ih =>
    intro l2 h p hp
    cases l2 with
    | nil => simp at hp
    | cons b t2 =>
      simp only [List.map_cons, List.cons.injEq] at h
      rcases List.mem_cons.mp (by simpa [List.zip_cons_cons] using hp) with rfl | hm
      · exact h.1
      · exact ih h.2 p hm

/-- With no overlapping column names, `merge_asof` suffixes nothing. -/
theorem suffix_map_id {cols1 cols2 : List String} (sfx : String)
    (h : ∀ c ∈ cols1, c ∉ cols2) :
    cols1.map (fun c => if c ∈ cols2 then c ++ sfx else c) = cols1 := by
  have : ∀ c ∈ cols1, (if c ∈ cols2 then c ++ sfx else c) = c := by
    intro c hc
    rw [if_neg (h c hc)]
  calc cols1.map (fun c => if c ∈ cols2 then c ++ sfx else c)
      = cols1.map id := List.map_congr_left this
    _ = cols1 := List.map_id _

/-- Computation of `merge_asof` under sorted keys and disjoint column sets. -/
theorem mergeAsof_eq (left right : DFrame) (lOn rOn : String) {jL jR : ℕ}
    (hL : colIdx left.cols lOn = some jL) (hR : colIdx right.cols rOn = some jR)
    (hcL : chainLE jL left.rows = true) (hcR : chainLE jR right.rows = true)
    (hdisj : ∀ c ∈ left.cols, c ∉ right.cols) :
    mergeAsof left right lOn rOn = .ok
      ⟨left.cols ++ right.cols,
       (List.range left.rows.length).map Int.ofNat,
       left.rows.map (fun r => r ++
         right.rows.foldl
           (fun acc q =>
             match getCell q jR, getCell r jL with
             | some k, some t => if k ≤ t then q else acc
             | _, _ => acc)
           (List.replicate right.cols.length none))⟩ := by
  simp only [mergeAsof, hL, hR, hcL, hcR, if_true]
  rw [suffix_map_id _ hdisj, suffix_map_id _ (fun c hc hmem => hdisj c hmem hc)]

/-- Column extraction from rows of the shape `r ++ f r`. -/
theorem colE_append_rows {cols1 cols2 : List String} {idx : List ℤ}
    {lrows : List (List Val)} {f : List Val → List Val} {tgt : String} {k : ℕ}
    (htgt1 : tgt ∉ cols1) (htgt2 : colIdx cols2 tgt = some k)
    (hwf : ∀ r ∈ lrows, r.length = cols1.length) :
    DFrame.colE ⟨cols1 ++ cols2, idx, lrows.map (fun r => r ++ f r)⟩ tgt =
      .ok (lrows.map (fun r => getCell (f r) k)) := by
  have hpos : colIdx (cols1 ++ cols2) tgt = some (k + cols1.length) := by
    rw [colIdx_append_right _ htgt1, htgt2]
    rfl
  rw [colE_eq _ _ hpos]
  congr 1
  rw [List.map_map]
  apply List.map_congr_left
  intro r hr
  show getCell (r ++ f r) (k + cols1.length) = getCell (f r) k
  rw [Nat.add_comm, ← hwf r hr, getCell_append_right]

/-- Extraction of the forward match: folding the asof step over the projected
trial rows `[start, idx]` and reading the second cell is `fwdMatch`. -/
theorem asofStart (t : ℚ) :
    ∀ (trials : List TrialT) (acc : List Val),
      getCell ((trials.map (fun tr => [some tr.1, some tr.2.2])).foldl
        (fun acc q =>
          match getCell q 0, (some t : Val) with
          | some k, some tt => if k ≤ tt then q else acc
          | _, _ => acc) acc) 1 =
      trials.foldl (fun a tr => if tr.1 ≤ t then some tr.2.2 else a) (getCell acc 1) := by
  intro trials
  induction trials with
  | nil => intro acc; rfl
  | cons tr trs ih =>
    intro acc
    simp only [List.map_cons, List.foldl_cons]
    show getCell ((trs.map (fun tr => [some tr.1, some tr.2.2])).foldl _
      (if tr.1 ≤ t then [some tr.1, some tr.2.2] else acc)) 1 = _
    rw [ih]
    by_cases h : tr.1 ≤ t
    · rw [if_pos h, if_pos h]
      rfl
    · rw [if_neg h, if_neg h]

/-- Extraction of the backward match: folding the asof step over the projected
inverted-end rows `[idx, inverted_end]` and reading the first cell. -/
theorem asofStop (m t : ℚ) :
    ∀ (l : List TrialT) (acc : List Val),
      getCell ((l.map (fun tr => [some tr.2.2, some (m - tr.2.1)])).foldl
        (fun acc q =>
          match getCell q 1, (some (m - t) : Val) with
          | some k, some tt => if k ≤ tt then q else acc
          | _, _ => acc) acc) 0 =
      l.foldl (fun a tr => if m - tr.2.1 ≤ m - t then some tr.2.2 else a)
        (getCell acc 0) := by
  intro l
  induction l with
  | nil => intro acc; rfl
  | cons tr trs ih =>
    intro acc
    simp only [List.map_cons, List.foldl_cons]
    show getCell ((trs.map (fun tr => [some tr.2.2, some (m - tr.2.1)])).foldl _
      (if m - tr.2.1 ≤ m - t then [some tr.2.2, some (m - tr.2.1)] else acc)) 0 = _
    rw [ih]
    by_cases h : m - tr.2.1 ≤ m - t
    · rw [if_pos h, if_pos h]
      rfl
    · rw [if_neg h, if_neg h]

theorem zip_pred_of_map_eq' {α β γ : Type} {f : α → γ} {g : β → γ} :
    ∀ {l1 : List α} {l2 : List β}, l1.map f = l2.map g →
      ∀ p ∈ l2.zip l1, g p.1 = f p.2 := by
  intro l1
  induction l1 with
  | nil =>
    intro l2 h p hp
    cases l2 with
    | nil => simp at hp
    | cons b t2 => simp at h
  | cons a t1 ih =>
    intro l2 h p hp
    cases l2 with
    | nil => simp at hp
    | cons b t2 =>
      simp only [List.map_cons, List.cons.injEq] at h
      rcases List.mem_cons.mp (by simpa [List.zip_cons_cons] using hp) with rfl | hm
      · exact h.1.symm
      · exact ih h.2 p hm

theorem setCol_append (df : DFrame) (c : String) (s : List (ℤ × Val))
    (h : c ∉ df.cols) :
    df.setCol c s = ⟨df.cols ++ [c], df.index,
      (df.rows.zip (df.index.map (DFrame.lookupLabel s))).map
        (fun p => p.1 ++ [p.2])⟩ := by
  simp only [DFrame.setCol, colIdx_eq_none_iff.mpr h]

theorem setCol_replace (df : DFrame) (c : String) (s : List (ℤ × Val)) {j : ℕ}
    (hj : colIdx df.cols c = some j) :
    df.setCol c s = ⟨df.cols, df.index,
      (df.rows.zip (df.index.map (DFrame.lookupLabel s))).map
        (fun p => p.1.set j p.2)⟩ := by
  simp only [DFrame.setCol, hj]

theorem dropCol_eq (df : DFrame) (c : String) {j : ℕ}
    (hj : colIdx df.cols c = some j) :
    df.dropCol c = .ok ⟨df.cols.eraseIdx j, df.index,
      df.rows.map (fun r => r.eraseIdx j)⟩ := by
  simp only [DFrame.dropCol, hj]

theorem pairwise_zip_left {α β : Type} {P : α → α → Prop} :
    ∀ {l1 : List α} (l2 : List β), l1.Pairwise P →
      (l1.zip l2).Pairwise (fun p q => P p.1 q.1) := by
  intro l1
  induction l1 with
  | nil => intro l2 _; simp
  | cons a t1 ih =>
    intro l2 h
    cases l2 with
    | nil => simp
    | cons b t2 =>
      rw [List.zip_cons_cons]
      refine List.Pairwise.cons ?_ (ih t2 (List.pairwise_cons.mp h).2)
      intro q hq
      obtain ⟨q1, q2⟩ := q
      exact (List.pairwise_cons.mp h).1 q1 (List.of_mem_zip hq).1

theorem zip_swap_map {α β γ : Type} (f : α → γ) :
    ∀ (l1 : List α) (l2 : List β), l2.length = l1.length →
      l2.zip (l1.map f) = (l1.zip l2).map (fun p => (p.2, f p.1)) := by
  intro l1
  induction l1 with
  | nil =>
    intro l2 h
    cases l2 with
    | nil => rfl
    | cons b t2 => simp at h
  | cons a t ih =>
    intro l2 h
    cases l2 with
    | nil => simp at h
    | cons b t2 =>
      simp only [List.map_cons, List.zip_cons_cons]
      rw [ih t2 (by simpa using h)]

theorem getCell_set_ne {l : List Val} {i j : ℕ} {v : Val} (h : i ≠ j) :
    getCell (l.set i v) j = getCell l j := by
  rw [getCell, getCell, List.getD_eq_getElem?_getD, List.getD_eq_getElem?_getD,
    List.getElem?_set_ne h]

theorem getCell_set_self {l : List Val} {j : ℕ} {v : Val} (h : j < l.length) :
    getCell (l.set j v) j = v := by
  rw [getCell, List.getD_eq_getElem?_getD, List.getElem?_set_self (by simpa using h)]
  rfl

theorem map_reverse_reverse {α β : Type} (f : α → β) (l : List α) :
    (l.reverse.map f).reverse = l.map f := by
  rw [List.map_reverse, List.reverse_reverse]

theorem dframe_cols (a : List String) (b : List ℤ) (c : List (List Val)) :
    (DFrame.mk a b c).cols = a := rfl

theorem dframe_index (a : List String) (b : List ℤ) (c : List (List Val)) :
    (DFrame.mk a b c).index = b := rfl

theorem dframe_rows (a : List String) (b : List ℤ) (c : List (List Val)) :
    (DFrame.mk a b c).rows = c := rfl

/-- Characterization of `demarcate_trials` on clean inputs: the time-series
table is sorted by time with a default RangeIndex and strictly increasing
times, its column names are disjoint from the trial table's start/index
columns, the temporaries and the created column, and the trial table holds
proper non-overlapping trials sorted by start.  The run succeeds and augments
each sample row with the per-sample assignment `assignVal` gated by the
forward and backward matches. -/
theorem demarcate_trials_clean (tsCols : List String) (tsRows : List (List Val))
    (times : List ℚ) (trials : List TrialT) (cr : String) (jt : ℕ) (m : ℚ)
    (hjt : colIdx tsCols "time" = some jt)
    (hwf : ∀ r ∈ tsRows, r.length = tsCols.length)
    (htv : tsRows.map (fun r => getCell r jt) = times.map some)
    (hsorted : times.Pairwise (· < ·))
    (hn1 : "trial_idx" ∉ tsCols) (hn2 : "inverted_time" ∉ tsCols)
    (hn3 : "inverted_end_time" ∉ tsCols) (hn4 : "start_time" ∉ tsCols)
    (hc2 : cr ≠ "inverted_time") (hc4 : cr ≠ "time") (hc5 : cr ≠ "")
    (htr : trials.Pairwise (fun a b => a.2.1 ≤ b.1))
    (hproper : ∀ tr ∈ trials, tr.1 < tr.2.1)
    (hm : maxPair (colMax (times.map some))
      (colMax (trials.map (fun tr => some tr.2.1))) = some m) :
    demarcate_trials ⟨tsCols, (List.range tsRows.length).map Int.ofNat, tsRows⟩
        (trialsDF trials) "time" "start_time" "reward_collection_time"
        "trial_idx" (some cr) =
      .ok (demarcResult tsCols tsRows times trials m cr) := by
  have hlen_rt : tsRows.length = times.length := by
    have h := congrArg List.length htv
    simpa using h
  have hcell : ∀ p ∈ times.zip tsRows, getCell p.2 jt = some p.1 := by
    intro p hp
    exact (zip_pred_of_map_eq' htv p hp).symm
  have hle1 : (tsRows.map (fun r => getCell r jt)).Pairwise
      (fun a b => vleB a b = true) := by
    rw [htv]
    apply List.pairwise_map.mpr
    refine hsorted.imp ?_
    intro a b hab
    simp [vleB, le_of_lt hab]
  have hrows_le := List.pairwise_map.mp hle1
  have hlt1 : (tsRows.map (fun r => getCell r jt)).Pairwise
      (fun a b => vltB a b = true) := by
    rw [htv]
    apply List.pairwise_map.mpr
    refine hsorted.imp ?_
    intro a b hab
    simp [vltB, hab]
  have hrows_lt := List.pairwise_map.mp hlt1
  have hstarts : trials.Pairwise (fun a b => a.1 ≤ b.1) := by
    refine htr.imp_of_mem ?_
    intro a b ha _ hab
    exact le_of_lt (lt_of_lt_of_le (hproper a ha) hab)
  have hends : trials.Pairwise (fun a b => a.2.1 < b.2.1) := by
    refine htr.imp_of_mem ?_
    intro a b _ hb hab
    exact lt_of_le_of_lt hab (hproper b hb)
  have hstep1 : DFrame.sortValues
      ⟨tsCols, (List.range tsRows.length).map Int.ofNat, tsRows⟩ "time" =
      .ok ⟨tsCols, (List.range tsRows.length).map Int.ofNat, tsRows⟩ :=
    sortValues_sorted_eq _ _ hjt (by simp) hrows_le
  have hstep2 : (trialsDF trials).sortValues "start_time" = .ok (trialsDF trials) := by
    refine sortValues_sorted_eq _ _ (show colIdx
      ["start_time", "reward_collection_time", "trial_idx"] "start_time" = some 0
      by decide) (by simp [trialsDF]) ?_
    show (trialsDF trials).rows.Pairwise _
    apply List.pairwise_map.mpr
    refine hstarts.imp ?_
    intro a b hab
    simp [getCell, vleB, hab]
  have hstep3 : (trialsDF trials).select ["start_time", "trial_idx"] =
      .ok ⟨["start_time", "trial_idx"], (List.range trials.length).map Int.ofNat,
        trials.map (fun tr => [some tr.1, some tr.2.2])⟩ := by
    rw [select_eq _ _ (by intro c hc; fin_cases hc <;> simp [trialsDF])]
    simp only [trialsDF, List.map_map]
    congr 1
  have hdisjTs : ∀ c ∈ tsCols, c ∉ ["start_time", "trial_idx"] := by
    intro c hc hmem
    rcases List.mem_cons.mp hmem with rfl | hmem2
    · exact hn4 hc
    · rcases List.mem_cons.mp hmem2 with rfl | hmem3
      · exact hn1 hc
      · simp at hmem3
  have hprojStarts : (trials.map (fun tr => [(some tr.1 : Val), some tr.2.2])).Pairwise
      (fun r s => vleB (getCell r 0) (getCell s 0) = true) := by
    apply List.pairwise_map.mpr
    refine hstarts.imp ?_
    intro a b hab
    simpa [getCell, vleB] using hab
  have hstep4 : mergeAsof
      ⟨tsCols, (List.range tsRows.length).map Int.ofNat, tsRows⟩
      ⟨["start_time", "trial_idx"], (List.range trials.length).map Int.ofNat,
        trials.map (fun tr => [some tr.1, some tr.2.2])⟩ "time" "start_time" =
      .ok ⟨tsCols ++ ["start_time", "trial_idx"],
        (List.range tsRows.length).map Int.ofNat,
        tsRows.map (fun r => r ++
          (trials.map (fun tr => [(some tr.1 : Val), some tr.2.2])).foldl
            (fun acc q =>
              match getCell q 0, getCell r jt with
              | some k, some t => if k ≤ t then q else acc
              | _, _ => acc)
            (List.replicate 2 none))⟩ := by
    exact mergeAsof_eq _ _ _ _ hjt rfl (chainLE_of_pairwise hrows_le)
      (chainLE_of_pairwise hprojStarts) hdisjTs
  have hstep5 : DFrame.colE
      ⟨tsCols, (List.range tsRows.length).map Int.ofNat, tsRows⟩ "time" =
      .ok (times.map some) := by
    rw [colE_eq _ _ hjt]
    exact congrArg Except.ok htv
  have hstep6 : (trialsDF trials).colE "reward_collection_time" =
      .ok (trials.map (fun tr => some tr.2.1)) := by
    have hci : colIdx ["start_time", "reward_collection_time", "trial_idx"]
        "reward_collection_time" = some 1 := by decide
    rw [colE_eq (trialsDF trials) "reward_collection_time" hci]
    simp only [trialsDF, List.map_map]
    congr 1
  have hnodupIdx : ∀ n : ℕ, ((List.range n).map Int.ofNat).Nodup := by
    intro n
    refine List.Nodup.map ?_ (List.nodup_range n)
    intro a b h
    exact Int.ofNat.inj h
  have hvals_tr : ((List.range trials.length).map Int.ofNat).map
      (DFrame.lookupLabel (((List.range trials.length).map Int.ofNat).zip
        (trials.map (fun tr => some (m - tr.2.1))))) =
      trials.map (fun tr => (some (m - tr.2.1) : Val)) :=
    map_lookupLabel_zip_self _ _ (hnodupIdx _) (by simp)
  have hstep7 : (trialsDF trials).setCol "inverted_end_time"
      ((trialsDF trials).index.zip
        (List.map (vsub (some m)) (List.map (fun tr => some tr.2.1) trials))) =
      ⟨["start_time", "reward_collection_time", "trial_idx", "inverted_end_time"],
       (List.range trials.length).map Int.ofNat,
       trials.map (fun tr =>
         [some tr.1, some tr.2.1, some tr.2.2, some (m - tr.2.1)])⟩ := by
    rw [setCol_append _ _ _
      (show "inverted_end_time" ∉
        (["start_time", "reward_collection_time", "trial_idx"] : List String) by decide)]
    have hw : List.map (vsub (some m)) (List.map (fun tr => some tr.2.1) trials) =
        trials.map (fun tr => (some (m - tr.2.1) : Val)) := by
      rw [List.map_map]
      rfl
    show DFrame.mk _ _ _ = _
    rw [show (trialsDF trials).index = (List.range trials.length).map Int.ofNat from rfl,
      hw, hvals_tr]
    congr 1
    rw [show (trialsDF trials).rows =
      trials.map (fun tr => [(some tr.1 : Val), some tr.2.1, some tr.2.2]) from rfl]
    rw [List.zip_map', List.map_map]
    rfl
  have hstep8 : (DFrame.mk
      ["start_time", "reward_collection_time", "trial_idx", "inverted_end_time"]
      ((List.range trials.length).map Int.ofNat)
      (trials.map (fun tr =>
        [some tr.1, some tr.2.1, some tr.2.2, some (m - tr.2.1)]))).select
      ["trial_idx", "inverted_end_time"] =
      .ok ⟨["trial_idx", "inverted_end_time"],
        (List.range trials.length).map Int.ofNat,
        trials.map (fun tr => [some tr.2.2, some (m - tr.2.1)])⟩ := by
    rw [select_eq _ _ (by intro c hc; fin_cases hc <;> simp)]
    simp only [List.map_map]
    congr 1
  have hstep9 : (DFrame.mk ["trial_idx", "inverted_end_time"]
      ((List.range trials.length).map Int.ofNat)
      (trials.map (fun tr => [some tr.2.2, some (m - tr.2.1)]))).sortValues
      "inverted_end_time" =
      .ok ⟨["trial_idx", "inverted_end_time"],
        ((List.range trials.length).map Int.ofNat).reverse,
        (trials.reverse).map (fun tr => [some tr.2.2, some (m - tr.2.1)])⟩ := by
    have hdesc : (trials.map (fun tr =>
        [(some tr.2.2 : Val), some (m - tr.2.1)])).Pairwise
        (fun r s => vltB (getCell s 1) (getCell r 1) = true) := by
      apply List.pairwise_map.mpr
      refine hends.imp ?_
      intro a b hab
      simp only [getCell, List.getD_cons_succ, List.getD_cons_zero, vltB]
      simp [sub_lt_sub_iff_left, hab]
    have h := sortValues_desc_eq_reverse
      (DFrame.mk ["trial_idx", "inverted_end_time"]
        ((List.range trials.length).map Int.ofNat)
        (trials.map (fun tr => [some tr.2.2, some (m - tr.2.1)])))
      "inverted_end_time"
      (show colIdx ["trial_idx", "inverted_end_time"] "inverted_end_time" = some 1
        by decide)
      (by simp) hdesc
    rw [h]
    simp only [DFrame.reverseRows]
    congr 1
    rw [List.map_reverse]
  have hZLlen : ∀ p ∈ times.zip tsRows, p.2.length = tsCols.length := by
    intro p hp
    obtain ⟨a, b⟩ := p
    exact hwf b (List.of_mem_zip hp).2
  have hgkey : ∀ p ∈ times.zip tsRows,
      getCell (p.2 ++ [some (m - p.1)]) tsCols.length = some (m - p.1) := by
    intro p hp
    have h2 := hZLlen p hp
    have h3 : getCell (p.2 ++ [some (m - p.1)]) (p.2.length + 0) =
        getCell [some (m - p.1)] 0 := getCell_append_right
    simpa [h2] using h3
  have hstep10 : (DFrame.mk tsCols ((List.range tsRows.length).map Int.ofNat)
      tsRows).setCol "inverted_time"
      (((List.range tsRows.length).map Int.ofNat).zip
        (List.map (vsub (some m)) (List.map some times))) =
      ⟨tsCols ++ ["inverted_time"], (List.range tsRows.length).map Int.ofNat,
       (times.zip tsRows).map (fun p => p.2 ++ [some (m - p.1)])⟩ := by
    rw [setCol_append _ _ _ hn2]
    have hw : List.map (vsub (some m)) (List.map some times) =
        times.map (fun t => (some (m - t) : Val)) := by
      rw [List.map_map]
      rfl
    show DFrame.mk _ _ _ = _
    rw [show (DFrame.mk tsCols ((List.range tsRows.length).map Int.ofNat)
        tsRows).index = (List.range tsRows.length).map Int.ofNat from rfl, hw,
      map_lookupLabel_zip_self _ _ (hnodupIdx _) (by simp [hlen_rt])]
    congr 1
    rw [show (DFrame.mk tsCols ((List.range tsRows.length).map Int.ofNat)
        tsRows).rows = tsRows from rfl,
      zip_swap_map _ times tsRows hlen_rt, List.map_map]
    rfl
  have hLmid : colIdx (tsCols ++ ["inverted_time"]) "inverted_time" =
      some tsCols.length := by
    rw [colIdx_append_right _ hn2]
    simp [colIdx]
  have hcL2 : chainLE tsCols.length
      (((times.zip tsRows).map (fun p => p.2 ++ [some (m - p.1)])).reverse) = true := by
    apply chainLE_of_pairwise
    rw [List.pairwise_reverse]
    apply List.pairwise_map.mpr
    refine List.Pairwise.imp_of_mem ?_ (pairwise_zip_left tsRows hsorted)
    intro a b ha hb hab
    rw [hgkey b hb, hgkey a ha]
    show vleB _ _ = true
    simp only [vleB, decide_eq_true_eq]
    linarith
  have hcR2 : chainLE 1
      (trials.reverse.map (fun tr => [(some tr.2.2 : Val), some (m - tr.2.1)])) = true := by
    apply chainLE_of_pairwise
    apply List.pairwise_map.mpr
    rw [List.pairwise_reverse]
    refine hends.imp ?_
    intro a b hab
    simp only [getCell, List.getD_cons_succ, List.getD_cons_zero, vleB,
      decide_eq_true_eq]
    linarith
  have hdisj2 : ∀ c ∈ tsCols ++ ["inverted_time"],
      c ∉ (["trial_idx", "inverted_end_time"] : List String) := by
    intro c hc
    rcases List.mem_append.mp hc with h | h
    · intro hmem
      rcases List.mem_cons.mp hmem with rfl | hmem2
      · exact hn1 h
      · rcases List.mem_cons.mp hmem2 with rfl | hmem3
        · exact hn3 h
        · simp at hmem3
    · have hcv : c = "inverted_time" := by simpa using h
      subst hcv
      decide
  have hstep11 : mergeAsof
      (DFrame.mk (tsCols ++ ["inverted_time"]) ((List.range tsRows.length).map Int.ofNat)
        ((times.zip tsRows).map (fun p => p.2 ++ [some (m - p.1)]))).reverseRows
      (DFrame.mk ["trial_idx", "inverted_end_time"]
        (((List.range trials.length).map Int.ofNat).reverse)
        (trials.reverse.map (fun tr => [some tr.2.2, some (m - tr.2.1)])))
      "inverted_time" "inverted_end_time" =
      .ok ⟨(tsCols ++ ["inverted_time"]) ++ ["trial_idx", "inverted_end_time"],
        (List.range tsRows.length).map Int.ofNat,
        (times.zip tsRows).reverse.map (fun p => (p.2 ++ [some (m - p.1)]) ++
          (trials.reverse.map (fun tr => [(some tr.2.2 : Val), some (m - tr.2.1)])).foldl
            (fun acc q =>
              match getCell q 1, getCell (p.2 ++ [some (m - p.1)]) tsCols.length with
              | some k, some t => if k ≤ t then q else acc
              | _, _ => acc)
            (List.replicate 2 none))⟩ := by
    rw [mergeAsof_eq
      (DFrame.mk (tsCols ++ ["inverted_time"]) ((List.range tsRows.length).map Int.ofNat)
        ((times.zip tsRows).map (fun p => p.2 ++ [some (m - p.1)]))).reverseRows
      (DFrame.mk ["trial_idx", "inverted_end_time"]
        (((List.range trials.length).map Int.ofNat).reverse)
        (trials.reverse.map (fun tr => [some tr.2.2, some (m - tr.2.1)])))
      "inverted_time" "inverted_end_time" hLmid
      (show colIdx ["trial_idx", "inverted_end_time"] "inverted_end_time" = some 1
        by decide)
      hcL2 hcR2 hdisj2]
    simp only [DFrame.reverseRows]
    congr 1
    congr 1
    · simp [hlen_rt]
    · rw [← List.map_reverse, List.map_map]
      rfl
  have hWt : ∀ p ∈ times.zip tsRows, ∀ (s : List Val),
      getCell ((p.2 ++ [some (m - p.1)]) ++ s) jt = some p.1 := by
    intro p hp s
    have h2 := hZLlen p hp
    have hjtlt : jt < p.2.length := by
      rw [h2]
      exact colIdx_lt_length hjt
    have hlts : jt < (p.2 ++ [some (m - p.1)]).length := by
      simp only [List.length_append, List.length_cons, List.length_nil]
      omega
    rw [getCell_append_left hlts, getCell_append_left hjtlt]
    exact hcell p hp
  have hstep12 : (DFrame.mk
      ((tsCols ++ ["inverted_time"]) ++ ["trial_idx", "inverted_end_time"])
      ((List.range tsRows.length).map Int.ofNat)
      ((times.zip tsRows).reverse.map (fun p => (p.2 ++ [some (m - p.1)]) ++
        (trials.reverse.map (fun tr => [(some tr.2.2 : Val), some (m - tr.2.1)])).foldl
          (fun acc q =>
            match getCell q 1, getCell (p.2 ++ [some (m - p.1)]) tsCols.length with
            | some k, some t => if k ≤ t then q else acc
            | _, _ => acc)
          (List.replicate 2 none)))).sortValues "time" =
      .ok ⟨(tsCols ++ ["inverted_time"]) ++ ["trial_idx", "inverted_end_time"],
        ((List.range tsRows.length).map Int.ofNat).reverse,
        (times.zip tsRows).map (fun p => (p.2 ++ [some (m - p.1)]) ++
          (trials.reverse.map (fun tr => [(some tr.2.2 : Val), some (m - tr.2.1)])).foldl
            (fun acc q =>
              match getCell q 1, getCell (p.2 ++ [some (m - p.1)]) tsCols.length with
              | some k, some t => if k ≤ t then q else acc
              | _, _ => acc)
            (List.replicate 2 none))⟩ := by
    have hjt2 : colIdx ((tsCols ++ ["inverted_time"]) ++ ["trial_idx", "inverted_end_time"])
        "time" = some jt := colIdx_append_left _ (colIdx_append_left _ hjt)
    have hdesc : ((times.zip tsRows).reverse.map (fun p => (p.2 ++ [some (m - p.1)]) ++
        (trials.reverse.map (fun tr => [(some tr.2.2 : Val), some (m - tr.2.1)])).foldl
          (fun acc q =>
            match getCell q 1, getCell (p.2 ++ [some (m - p.1)]) tsCols.length with
            | some k, some t => if k ≤ t then q else acc
            | _, _ => acc)
          (List.replicate 2 none))).Pairwise
        (fun r s => vltB (getCell s jt) (getCell r jt) = true) := by
      apply List.pairwise_map.mpr
      rw [List.pairwise_reverse]
      refine List.Pairwise.imp_of_mem ?_ (pairwise_zip_left tsRows hsorted)
      intro a b ha hb hab
      rw [hWt a ha, hWt b hb]
      show vltB _ _ = true
      simp only [vltB, decide_eq_true_eq]
      exact hab
    refine Eq.trans (sortValues_desc_eq_reverse _ "time" hjt2 ?_ hdesc) ?_
    · simp [hlen_rt]
    · simp only [DFrame.reverseRows]
      rw [map_reverse_reverse]
  have hstepA : (DFrame.mk (tsCols ++ ["start_time", "trial_idx"])
      ((List.range tsRows.length).map Int.ofNat)
      (tsRows.map (fun r => r ++
        (trials.map (fun tr => [(some tr.1 : Val), some tr.2.2])).foldl
          (fun acc q =>
            match getCell q 0, getCell r jt with
            | some k, some t => if k ≤ t then q else acc
            | _, _ => acc)
          (List.replicate 2 none)))).colE "trial_idx" =
      .ok ((times.zip tsRows).map (fun p => fwdMatch trials p.1)) := by
    rw [@colE_append_rows tsCols ["start_time", "trial_idx"]
      ((List.range tsRows.length).map Int.ofNat) tsRows
      (fun r => (trials.map (fun tr => [(some tr.1 : Val), some tr.2.2])).foldl
        (fun acc q =>
          match getCell q 0, getCell r jt with
          | some k, some t => if k ≤ t then q else acc
          | _, _ => acc)
        (List.replicate 2 none))
      "trial_idx" 1 hn1 (by decide) hwf]
    apply congrArg Except.ok
    conv_lhs => rw [← List.map_snd_zip times tsRows hlen_rt.le]
    rw [List.map_map]
    apply List.map_congr_left
    intro p hp
    show getCell _ 1 = _
    rw [hcell p hp]
    exact (asofStart p.1 trials (List.replicate 2 none)).trans rfl
  have hstepB : ∀ idx2 : List ℤ, (DFrame.mk
      ((tsCols ++ ["inverted_time"]) ++ ["trial_idx", "inverted_end_time"]) idx2
      ((times.zip tsRows).map (fun p => (p.2 ++ [some (m - p.1)]) ++
        (trials.reverse.map (fun tr => [(some tr.2.2 : Val), some (m - tr.2.1)])).foldl
          (fun acc q =>
            match getCell q 1, getCell (p.2 ++ [some (m - p.1)]) tsCols.length with
            | some k, some t => if k ≤ t then q else acc
            | _, _ => acc)
          (List.replicate 2 none)))).colE "trial_idx" =
      .ok ((times.zip tsRows).map (fun p => bwdMatch trials m p.1)) := by
    intro idx2
    have htg1 : "trial_idx" ∉ tsCols ++ ["inverted_time"] := by
      intro h
      rcases List.mem_append.mp h with h | h
      · exact hn1 h
      · simp at h
    have hwfg : ∀ r ∈ (times.zip tsRows).map (fun p => p.2 ++ [some (m - p.1)]),
        r.length = (tsCols ++ ["inverted_time"]).length := by
      intro r hr
      obtain ⟨p, hp, rfl⟩ := List.mem_map.mp hr
      simp [hZLlen p hp]
    have hrw : (times.zip tsRows).map (fun p => (p.2 ++ [some (m - p.1)]) ++
        (trials.reverse.map (fun tr => [(some tr.2.2 : Val), some (m - tr.2.1)])).foldl
          (fun acc q =>
            match getCell q 1, getCell (p.2 ++ [some (m - p.1)]) tsCols.length with
            | some k, some t => if k ≤ t then q else acc
            | _, _ => acc)
          (List.replicate 2 none)) =
        ((times.zip tsRows).map (fun p => p.2 ++ [some (m - p.1)])).map (fun r => r ++
          (trials.reverse.map (fun tr => [(some tr.2.2 : Val), some (m - tr.2.1)])).foldl
            (fun acc q =>
              match getCell q 1, getCell r tsCols.length with
              | some k, some t => if k ≤ t then q else acc
              | _, _ => acc)
            (List.replicate 2 none)) := by
      rw [List.map_map]
      rfl
    rw [hrw, @colE_append_rows (tsCols ++ ["inverted_time"])
      ["trial_idx", "inverted_end_time"] idx2
      ((times.zip tsRows).map (fun p => p.2 ++ [some (m - p.1)]))
      (fun r => (trials.reverse.map (fun tr => [(some tr.2.2 : Val), some (m - tr.2.1)])).foldl
        (fun acc q =>
          match getCell q 1, getCell r tsCols.length with
          | some k, some t => if k ≤ t then q else acc
          | _, _ => acc)
        (List.replicate 2 none))
      "trial_idx" 0 htg1 (by decide) hwfg]
    apply congrArg Except.ok
    rw [List.map_map]
    apply List.map_congr_left
    intro p hp
    show getCell _ 0 = _
    rw [hgkey p hp]
    exact (asofStop m p.1 trials.reverse (List.replicate 2 none)).trans rfl
  have hwhere : whereEq ((times.zip tsRows).map (fun p => fwdMatch trials p.1))
      ((times.zip tsRows).map (fun p => bwdMatch trials m p.1)) =
      (times.zip tsRows).map (fun p => assignVal trials m p.1) := by
    show List.zipWith _ _ _ = _
    rw [zipWith_map_same]
    apply List.map_congr_left
    intro p _
    rcases hF : fwdMatch trials p.1 with _ | a <;>
      rcases hB : bwdMatch trials m p.1 with _ | b <;>
        simp [assignVal, agreeVal, hF, hB]
  have hlenA : ((times.zip tsRows).map (fun p => assignVal trials m p.1)).length =
      tsRows.length := by
    simp [hlen_rt]
  have hvalsA : ((List.range tsRows.length).map Int.ofNat).map
      (DFrame.lookupLabel (((List.range tsRows.length).map Int.ofNat).zip
        ((times.zip tsRows).map (fun p => assignVal trials m p.1)))) =
      (times.zip tsRows).map (fun p => assignVal trials m p.1) :=
    map_lookupLabel_zip_self _ _ (hnodupIdx _) (by simp [hlen_rt])
  have htmem : "time" ∈ tsCols := colIdx_isSome_iff.mp (by rw [hjt]; rfl)
  have hfilt_sub : ∀ c ∈ tsCols.filter (fun c => decide (c ∉ ["time", cr])),
      c ∈ tsCols ∧ c ≠ "time" ∧ c ≠ cr := by
    intro c hc
    have h1 := List.of_mem_filter hc
    have h2 := List.mem_of_mem_filter hc
    rw [decide_eq_true_eq] at h1
    refine ⟨h2, ?_, ?_⟩
    · intro e
      exact h1 (by rw [e]; simp)
    · intro e
      exact h1 (by rw [e]; simp)
  by_cases hcr : cr ∈ tsCols
  · obtain ⟨jc, hjc⟩ := Option.isSome_iff_exists.mp (colIdx_isSome_iff.mpr hcr)
    have hjclt : ∀ p ∈ times.zip tsRows, jc < p.2.length := by
      intro p hp
      rw [hZLlen p hp]
      exact colIdx_lt_length hjc
    have hsetC : (DFrame.mk (tsCols ++ ["inverted_time"])
        ((List.range tsRows.length).map Int.ofNat)
        ((times.zip tsRows).map (fun p => p.2 ++ [some (m - p.1)]))).setCol cr
        (((List.range ((times.zip tsRows).map
            (fun p => assignVal trials m p.1)).length).map Int.ofNat).zip
          ((times.zip tsRows).map (fun p => assignVal trials m p.1))) =
        ⟨tsCols ++ ["inverted_time"], (List.range tsRows.length).map Int.ofNat,
         (times.zip tsRows).map (fun p =>
           (p.2 ++ [some (m - p.1)]).set jc (assignVal trials m p.1))⟩ := by
      rw [setCol_replace _ _ _ (colIdx_append_left ["inverted_time"] hjc)]
      simp only [dframe_cols, dframe_index, dframe_rows]
      rw [hlenA, hvalsA, List.zip_map', List.map_map]
      rfl
    have hdropC : (DFrame.mk (tsCols ++ ["inverted_time"])
        ((List.range tsRows.length).map Int.ofNat)
        ((times.zip tsRows).map (fun p =>
          (p.2 ++ [some (m - p.1)]).set jc (assignVal trials m p.1)))).dropCol
        "inverted_time" =
        .ok ⟨tsCols, (List.range tsRows.length).map Int.ofNat,
          (times.zip tsRows).map (fun p => p.2.set jc (assignVal trials m p.1))⟩ := by
      rw [dropCol_eq _ _ hLmid]
      simp only [dframe_cols, dframe_index, dframe_rows]
      have hcols : (tsCols ++ ["inverted_time"]).eraseIdx tsCols.length = tsCols := by
        have h := eraseIdx_append_middle tsCols "inverted_time" ([] : List String)
        simpa using h
      have hrows : ((times.zip tsRows).map (fun p =>
          (p.2 ++ [some (m - p.1)]).set jc (assignVal trials m p.1))).map
          (fun r => r.eraseIdx tsCols.length) =
          (times.zip tsRows).map (fun p => p.2.set jc (assignVal trials m p.1)) := by
        rw [List.map_map]
        apply List.map_congr_left
        intro p hp
        show ((p.2 ++ [some (m - p.1)]).set jc (assignVal trials m p.1)).eraseIdx
          tsCols.length = _
        rw [set_append_left p.2 [some (m - p.1)] jc (assignVal trials m p.1)
          (hjclt p hp)]
        rw [show tsCols.length = (p.2.set jc (assignVal trials m p.1)).length
          from by rw [List.length_set]; exact (hZLlen p hp).symm]
        have h := eraseIdx_append_middle (p.2.set jc (assignVal trials m p.1))
          (some (m - p.1)) ([] : List Val)
        simpa using h
      rw [hcols, hrows]
    have hsel_mem : ∀ c ∈ ["time", cr] ++
        tsCols.filter (fun c => decide (c ∉ ["time", cr])), c ∈ tsCols := by
      intro c hc
      rcases List.mem_append.mp hc with h | h
      · rcases List.mem_cons.mp h with rfl | h2
        · exact htmem
        · have hceq : c = cr := by simpa using h2
          rw [hceq]
          exact hcr
      · exact (hfilt_sub c h).1
    have hrowsSel : ((times.zip tsRows).map (fun p =>
        p.2.set jc (assignVal trials m p.1))).map
        (fun r => (["time", cr] ++
          tsCols.filter (fun c => decide (c ∉ ["time", cr]))).map
          (fun c => getCell r ((colIdx tsCols c).getD 0))) =
        (times.zip tsRows).map (fun p =>
          some p.1 :: assignVal trials m p.1 ::
            (tsCols.filter (fun c => decide (c ∉ ["time", cr]))).map
              (fun c => getCell p.2 ((colIdx tsCols c).getD 0))) := by
      rw [List.map_map]
      apply List.map_congr_left
      intro p hp
      simp only [Function.comp_apply, List.cons_append, List.nil_append,
        List.map_cons]
      have e1 : getCell (p.2.set jc (assignVal trials m p.1))
          ((colIdx tsCols "time").getD 0) = some p.1 := by
        rw [hjt]
        show getCell _ jt = _
        rw [getCell_set_ne (colIdx_inj hjc hjt hc4)]
        exact hcell p hp
      have e2 : getCell (p.2.set jc (assignVal trials m p.1))
          ((colIdx tsCols cr).getD 0) = assignVal trials m p.1 := by
        rw [hjc]
        show getCell _ jc = _
        exact getCell_set_self (hjclt p hp)
      rw [e1, e2]
      refine congrArg _ (congrArg _ (List.map_congr_left ?_))
      intro c hcf
      obtain ⟨hcm, hct, hccr⟩ := hfilt_sub c hcf
      obtain ⟨j, hj⟩ := Option.isSome_iff_exists.mp (colIdx_isSome_iff.mpr hcm)
      rw [hj]
      show getCell _ j = getCell p.2 j
      exact getCell_set_ne (colIdx_inj hjc hj (Ne.symm hccr))
    have hselC : (DFrame.mk tsCols ((List.range tsRows.length).map Int.ofNat)
        ((times.zip tsRows).map (fun p =>
          p.2.set jc (assignVal trials m p.1)))).select
        (["time", cr] ++ tsCols.filter (fun c => decide (c ∉ ["time", cr]))) =
        .ok (demarcResult tsCols tsRows times trials m cr) := by
      rw [select_eq _ _ hsel_mem]
      simp only [dframe_cols, dframe_index, dframe_rows]
      rw [hrowsSel]
      rfl
    simp only [demarcate_trials, bind, Except.bind, hstep1, hstep2, hstep3, hstep4,
      hstep5, hstep6, hm, hstep7, hstep8, hstep9, hstep10, hstep11, hstep12,
      DFrame.resetIndex, dframe_cols, dframe_index, dframe_rows, hstepA, hstepB,
      hwhere, if_neg hc5, hsetC, hdropC, hselC]
  · have hcrnot : cr ∉ tsCols ++ ["inverted_time"] := by
      intro h
      rcases List.mem_append.mp h with h | h
      · exact hcr h
      · exact hc2 (by simpa using h)
    have hsetC : (DFrame.mk (tsCols ++ ["inverted_time"])
        ((List.range tsRows.length).map Int.ofNat)
        ((times.zip tsRows).map (fun p => p.2 ++ [some (m - p.1)]))).setCol cr
        (((List.range ((times.zip tsRows).map
            (fun p => assignVal trials m p.1)).length).map Int.ofNat).zip
          ((times.zip tsRows).map (fun p => assignVal trials m p.1))) =
        ⟨(tsCols ++ ["inverted_time"]) ++ [cr],
         (List.range tsRows.length).map Int.ofNat,
         (times.zip tsRows).map (fun p =>
           (p.2 ++ [some (m - p.1)]) ++ [assignVal trials m p.1])⟩ := by
      rw [setCol_append _ _ _ hcrnot]
      simp only [dframe_cols, dframe_index, dframe_rows]
      rw [hlenA, hvalsA, List.zip_map', List.map_map]
      rfl
    have hdropC : (DFrame.mk ((tsCols ++ ["inverted_time"]) ++ [cr])
        ((List.range tsRows.length).map Int.ofNat)
        ((times.zip tsRows).map (fun p =>
          (p.2 ++ [some (m - p.1)]) ++ [assignVal trials m p.1]))).dropCol
        "inverted_time" =
        .ok ⟨tsCols ++ [cr], (List.range tsRows.length).map Int.ofNat,
          (times.zip tsRows).map (fun p => p.2 ++ [assignVal trials m p.1])⟩ := by
      rw [dropCol_eq _ _ (colIdx_append_left [cr] hLmid)]
      simp only [dframe_cols, dframe_index, dframe_rows]
      have hcols : ((tsCols ++ ["inverted_time"]) ++ [cr]).eraseIdx tsCols.length =
          tsCols ++ [cr] := by
        rw [List.append_assoc]
        exact eraseIdx_append_middle tsCols "inverted_time" [cr]
      have hrows : ((times.zip tsRows).map (fun p =>
          (p.2 ++ [some (m - p.1)]) ++ [assignVal trials m p.1])).map
          (fun r => r.eraseIdx tsCols.length) =
          (times.zip tsRows).map (fun p => p.2 ++ [assignVal trials m p.1]) := by
        rw [List.map_map]
        apply List.map_congr_left
        intro p hp
        show ((p.2 ++ [some (m - p.1)]) ++ [assignVal trials m p.1]).eraseIdx
          tsCols.length = _
        rw [List.append_assoc, show tsCols.length = p.2.length
          from (hZLlen p hp).symm]
        exact eraseIdx_append_middle p.2 (some (m - p.1)) [assignVal trials m p.1]
      rw [hcols, hrows]
    have hfiltC : (tsCols ++ [cr]).filter (fun c => decide (c ∉ ["time", cr])) =
        tsCols.filter (fun c => decide (c ∉ ["time", cr])) := by
      rw [List.filter_append]
      simp
    have hsel_mem : ∀ c ∈ ["time", cr] ++
        tsCols.filter (fun c => decide (c ∉ ["time", cr])), c ∈ tsCols ++ [cr] := by
      intro c hc
      rcases List.mem_append.mp hc with h | h
      · rcases List.mem_cons.mp h with rfl | h2
        · exact List.mem_append_left _ htmem
        · have hceq : c = cr := by simpa using h2
          rw [hceq]
          exact List.mem_append_right _ (by simp)
      · exact List.mem_append_left _ (hfilt_sub c h).1
    have hrowsSel : ((times.zip tsRows).map (fun p =>
        p.2 ++ [assignVal trials m p.1])).map
        (fun r => (["time", cr] ++
          tsCols.filter (fun c => decide (c ∉ ["time", cr]))).map
          (fun c => getCell r ((colIdx (tsCols ++ [cr]) c).getD 0))) =
        (times.zip tsRows).map (fun p =>
          some p.1 :: assignVal trials m p.1 ::
            (tsCols.filter (fun c => decide (c ∉ ["time", cr]))).map
              (fun c => getCell p.2 ((colIdx tsCols c).getD 0))) := by
      rw [List.map_map]
      apply List.map_congr_left
      intro p hp
      simp only [Function.comp_apply, List.cons_append, List.nil_append,
        List.map_cons]
      have e1 : getCell (p.2 ++ [assignVal trials m p.1])
          ((colIdx (tsCols ++ [cr]) "time").getD 0) = some p.1 := by
        rw [colIdx_append_left [cr] hjt]
        show getCell _ jt = _
        rw [getCell_append_left (by rw [hZLlen p hp]; exact colIdx_lt_length hjt)]
        exact hcell p hp
      have e2 : getCell (p.2 ++ [assignVal trials m p.1])
          ((colIdx (tsCols ++ [cr]) cr).getD 0) = assignVal trials m p.1 := by
        have h4 : colIdx [cr] cr = some 0 := by simp [colIdx]
        rw [colIdx_append_right [cr] hcr, h4]
        show getCell _ (0 + tsCols.length) = _
        rw [Nat.zero_add, show tsCols.length = p.2.length from (hZLlen p hp).symm]
        have h3 : getCell (p.2 ++ [assignVal trials m p.1]) (p.2.length + 0) =
            getCell [assignVal trials m p.1] 0 := getCell_append_right
        simp only [Nat.add_zero] at h3
        rw [h3]
        rfl
      rw [e1, e2]
      refine congrArg _ (congrArg _ (List.map_congr_left ?_))
      intro c hcf
      obtain ⟨hcm, hct, hccr⟩ := hfilt_sub c hcf
      obtain ⟨j, hj⟩ := Option.isSome_iff_exists.mp (colIdx_isSome_iff.mpr hcm)
      rw [colIdx_append_left [cr] hj, hj]
      show getCell _ j = getCell p.2 j
      rw [getCell_append_left (by rw [hZLlen p hp]; exact colIdx_lt_length hj)]
    have hselC : (DFrame.mk (tsCols ++ [cr])
        ((List.range tsRows.length).map Int.ofNat)
        ((times.zip tsRows).map (fun p =>
          p.2 ++ [assignVal trials m p.1]))).select
        (["time", cr] ++ (tsCols ++ [cr]).filter
          (fun c => decide (c ∉ ["time", cr]))) =
        .ok (demarcResult tsCols tsRows times trials m cr) := by
      rw [hfiltC, select_eq _ _ hsel_mem]
      simp only [dframe_cols, dframe_index, dframe_rows]
      rw [hrowsSel]
      rfl
    simp only [demarcate_trials, bind, Except.bind, hstep1, hstep2, hstep3, hstep4,
      hstep5, hstep6, hm, hstep7, hstep8, hstep9, hstep10, hstep11, hstep12,
      DFrame.resetIndex, dframe_cols, dframe_index, dframe_rows, hstepA, hstepB,
      hwhere, if_neg hc5, hsetC, hdropC, hselC]


/-! ### Last-match characterization of the asof folds -/

theorem foldl_ite_skip {α : Type} (P : α → Prop) [DecidablePred P] (f : α → ℚ) :
    ∀ (l : List α) (acc : Val), (∀ x ∈ l, ¬ P x) →
      l.foldl (fun a x => if P x then some (f x) else a) acc = acc := by
  intro l
  induction l with
  | nil => intro acc _; rfl
  | cons x t ih =>
    intro acc h
    simp only [List.foldl_cons]
    rw [if_neg (h x (by simp))]
    exact ih acc (fun y hy => h y (by simp [hy]))

theorem foldl_ite_last {α : Type} (P : α → Prop) [DecidablePred P] (f : α → ℚ)
    (l1 l2 : List α) (p : α) (acc : Val) (hp : P p) (hl2 : ∀ x ∈ l2, ¬ P x) :
    (l1 ++ p :: l2).foldl (fun a x => if P x then some (f x) else a) acc =
      some (f p) := by
  rw [List.foldl_append]
  simp only [List.foldl_cons]
  rw [if_pos hp]
  exact foldl_ite_skip P f l2 _ hl2

/-- At the start boundary of a trial that is strictly separated from its
predecessor and successor, forward and backward matches agree on that trial. -/
theorem assignVal_last (A B : List TrialT) (p : TrialT) (m : ℚ)
    (hA : ∀ a ∈ A, a.2.1 < p.1) (hB : ∀ b ∈ B, p.2.1 < b.1)
    (hp : p.1 < p.2.1) :
    assignVal (A ++ p :: B) m p.1 = some p.2.2 := by
  have hfwd : fwdMatch (A ++ p :: B) p.1 = some p.2.2 := by
    show (A ++ p :: B).foldl _ none = _
    exact foldl_ite_last (fun tr => tr.1 ≤ p.1) (fun tr => tr.2.2) A B p none
      (le_refl _) (fun x hx => not_le.mpr (lt_of_le_of_lt hp.le (hB x hx)))
  have hbwd : bwdMatch (A ++ p :: B) m p.1 = some p.2.2 := by
    show (A ++ p :: B).reverse.foldl _ none = _
    have hrev : (A ++ p :: B).reverse = B.reverse ++ p :: A.reverse := by
      rw [List.reverse_append, List.reverse_cons, List.append_assoc]
      rfl
    rw [hrev]
    refine foldl_ite_last (fun tr => m - tr.2.1 ≤ m - p.1) (fun tr => tr.2.2)
      B.reverse A.reverse p none (by linarith) ?_
    intro x hx hcon
    have hxa := hA x (List.mem_reverse.mp hx)
    have : p.1 ≤ x.2.1 := by linarith
    linarith
  simp [assignVal, agreeVal, hfwd, hbwd]

/-- Amended C6: on clean sorted inputs whose trials are strictly separated and
proper, a sample whose timestamp equals a trial's start boundary is assigned
that trial's index by `demarcate_trials`. -/
theorem C6_boundary_start_assigned_strict_gap
    (tsCols : List String) (tsRows : List (List Val)) (times : List ℚ)
    (trials : List TrialT) (cr : String) (jt : ℕ) (m : ℚ)
    (hjt : colIdx tsCols "time" = some jt)
    (hwf : ∀ r ∈ tsRows, r.length = tsCols.length)
    (htv : tsRows.map (fun r => getCell r jt) = times.map some)
    (hsorted : times.Pairwise (· < ·))
    (hn1 : "trial_idx" ∉ tsCols) (hn2 : "inverted_time" ∉ tsCols)
    (hn3 : "inverted_end_time" ∉ tsCols) (hn4 : "start_time" ∉ tsCols)
    (hc2 : cr ≠ "inverted_time") (hc4 : cr ≠ "time") (hc5 : cr ≠ "")
    (htr2 : trials.Pairwise (fun a b => a.2.1 < b.1))
    (hproper : ∀ tr ∈ trials, tr.1 < tr.2.1)
    (hm : maxPair (colMax (times.map some))
      (colMax (trials.map (fun tr => some tr.2.1))) = some m)
    (i k : ℕ) (hi : i < trials.length) (hk : k < times.length)
    (ht : times.getD k 0 = (trials.getD i default).1) :
    ∃ out, demarcate_trials ⟨tsCols, (List.range tsRows.length).map Int.ofNat, tsRows⟩
        (trialsDF trials) "time" "start_time" "reward_collection_time" "trial_idx"
        (some cr) = .ok out ∧
      getCell (out.rows.getD k []) 1 = some (trials.getD i default).2.2 := by
  refine ⟨_, demarcate_trials_clean tsCols tsRows times trials cr jt m hjt hwf htv
    hsorted hn1 hn2 hn3 hn4 hc2 hc4 hc5
    (htr2.imp (fun h => le_of_lt h)) hproper hm, ?_⟩
  have hlen_rt : tsRows.length = times.length := by
    simpa using congrArg List.length htv
  have hkz : k < (times.zip tsRows).length := by
    simp only [List.length_zip, hlen_rt, Nat.min_self]
    exact hk
  show getCell (((times.zip tsRows).map (fun p =>
    some p.1 :: assignVal trials m p.1 ::
      (tsCols.filter (fun c => decide (c ∉ ["time", cr]))).map
        (fun c => getCell p.2 ((colIdx tsCols c).getD 0)))).getD k []) 1 = _
  have hkm : k < ((times.zip tsRows).map (fun p =>
      some p.1 :: assignVal trials m p.1 ::
        (tsCols.filter (fun c => decide (c ∉ ["time", cr]))).map
          (fun c => getCell p.2 ((colIdx tsCols c).getD 0)))).length := by
    simpa using hkz
  rw [List.getD_eq_getElem _ _ hkm, List.getElem_map]
  show assignVal trials m ((times.zip tsRows)[k]).1 = _
  have hq1 : ((times.zip tsRows)[k]).1 = times.getD k 0 := by
    rw [List.getElem_zip]
    exact (List.getD_eq_getElem times 0 hk).symm
  rw [hq1, ht]
  obtain ⟨p, hpe⟩ : ∃ p, trials.getD i default = p := ⟨_, rfl⟩
  rw [hpe]
  have hip : trials[i] = p := by
    rw [← hpe]
    exact (List.getD_eq_getElem trials default hi).symm
  have hdecomp : trials = trials.take i ++ p :: trials.drop (i + 1) := by
    conv_lhs => rw [← List.take_append_drop i trials]
    rw [List.drop_eq_getElem_cons hi, hip]
  have hPW := htr2
  rw [hdecomp] at hPW
  rcases List.pairwise_append.mp hPW with ⟨hA0, hB0, hAB0⟩
  have hA : ∀ a ∈ trials.take i, a.2.1 < p.1 := fun a ha => hAB0 a ha p (by simp)
  have hB : ∀ b ∈ trials.drop (i + 1), p.2.1 < b.1 := (List.pairwise_cons.mp hB0).1
  have hpp : p.1 < p.2.1 := hproper p
    (by rw [hdecomp]; exact List.mem_append_right _ (List.mem_cons_self _ _))
  rw [hdecomp]
  exact assignVal_last (trials.take i) (trials.drop (i + 1)) p m hA hB hpp

/-! ### Idempotence of demarcation on clean inputs -/

theorem getCell_map_getD {g : String → Val} :
    ∀ (F : List String) (j : ℕ), j < F.length →
      getCell (F.map g) j = g (F.getD j "") := by
  intro F
  induction F with
  | nil => intro j h; cases h
  | cons a t ih =>
    intro j h
    cases j with
    | zero => rfl
    | succ j2 => exact ih j2 (by simpa using h)

theorem zip_self_map_map {α β γ δ : Type} (W : α × β → γ) (Q : α × γ → δ) :
    ∀ (l1 : List α) (l2 : List β),
      (l1.zip ((l1.zip l2).map W)).map Q = (l1.zip l2).map (fun p => Q (p.1, W p)) := by
  intro l1
  induction l1 with
  | nil => intro l2; rfl
  | cons a t ih =>
    intro l2
    cases l2 with
    | nil => rfl
    | cons b t2 =>
      simp only [List.zip_cons_cons, List.map_cons]
      rw [ih t2]

/-- Amended C2: on clean sorted inputs with a fresh created column name the
output frame of `demarcate_trials` is a fixed point of a second run with the
same trial table and parameters. -/
theorem C2_demarcate_trials_idempotent_clean
    (tsCols : List String) (tsRows : List (List Val)) (times : List ℚ)
    (trials : List TrialT) (cr : String) (jt : ℕ) (m : ℚ)
    (hjt : colIdx tsCols "time" = some jt)
    (hwf : ∀ r ∈ tsRows, r.length = tsCols.length)
    (htv : tsRows.map (fun r => getCell r jt) = times.map some)
    (hsorted : times.Pairwise (· < ·))
    (hn1 : "trial_idx" ∉ tsCols) (hn2 : "inverted_time" ∉ tsCols)
    (hn3 : "inverted_end_time" ∉ tsCols) (hn4 : "start_time" ∉ tsCols)
    (hc1 : cr ≠ "trial_idx") (hc2 : cr ≠ "inverted_time")
    (hc3 : cr ≠ "inverted_end_time") (hc4 : cr ≠ "time") (hc5 : cr ≠ "")
    (hc6 : cr ≠ "start_time")
    (htr : trials.Pairwise (fun a b => a.2.1 ≤ b.1))
    (hproper : ∀ tr ∈ trials, tr.1 < tr.2.1)
    (hm : maxPair (colMax (times.map some))
      (colMax (trials.map (fun tr => some tr.2.1))) = some m) :
    ∃ out, demarcate_trials ⟨tsCols, (List.range tsRows.length).map Int.ofNat, tsRows⟩
        (trialsDF trials) "time" "start_time" "reward_collection_time" "trial_idx"
        (some cr) = .ok out ∧
      demarcate_trials out (trialsDF trials) "time" "start_time"
        "reward_collection_time" "trial_idx" (some cr) = .ok out := by
  refine ⟨demarcResult tsCols tsRows times trials m cr,
    demarcate_trials_clean tsCols tsRows times trials cr jt m hjt hwf htv
      hsorted hn1 hn2 hn3 hn4 hc2 hc4 hc5 htr hproper hm, ?_⟩
  have hlen_rt : tsRows.length = times.length := by
    simpa using congrArg List.length htv
  have hfilt_sub : ∀ c ∈ tsCols.filter (fun c => decide (c ∉ ["time", cr])),
      c ∈ tsCols ∧ c ≠ "time" ∧ c ≠ cr := by
    intro c hc
    have h1 := List.of_mem_filter hc
    have h2 := List.mem_of_mem_filter hc
    rw [decide_eq_true_eq] at h1
    refine ⟨h2, ?_, ?_⟩
    · intro e
      exact h1 (by rw [e]; simp)
    · intro e
      exact h1 (by rw [e]; simp)
  have hframe : demarcResult tsCols tsRows times trials m cr =
      ⟨"time" :: cr :: tsCols.filter (fun c => decide (c ∉ ["time", cr])),
       (List.range ((times.zip tsRows).map (fun p =>
         some p.1 :: assignVal trials m p.1 ::
           (tsCols.filter (fun c => decide (c ∉ ["time", cr]))).map
             (fun c => getCell p.2 ((colIdx tsCols c).getD 0)))).length).map Int.ofNat,
       (times.zip tsRows).map (fun p =>
         some p.1 :: assignVal trials m p.1 ::
           (tsCols.filter (fun c => decide (c ∉ ["time", cr]))).map
             (fun c => getCell p.2 ((colIdx tsCols c).getD 0)))⟩ := by
    simp only [demarcResult, List.length_map, List.length_zip, hlen_rt, Nat.min_self]
  rw [hframe]
  have hjtB : colIdx ("time" :: cr ::
      tsCols.filter (fun c => decide (c ∉ ["time", cr]))) "time" = some 0 := by
    simp [colIdx]
  have hwfB : ∀ r ∈ (times.zip tsRows).map (fun p =>
      some p.1 :: assignVal trials m p.1 ::
        (tsCols.filter (fun c => decide (c ∉ ["time", cr]))).map
          (fun c => getCell p.2 ((colIdx tsCols c).getD 0))),
      r.length = ("time" :: cr ::
        tsCols.filter (fun c => decide (c ∉ ["time", cr]))).length := by
    intro r hr
    obtain ⟨p, hp, rfl⟩ := List.mem_map.mp hr
    simp
  have htvB : ((times.zip tsRows).map (fun p =>
      some p.1 :: assignVal trials m p.1 ::
        (tsCols.filter (fun c => decide (c ∉ ["time", cr]))).map
          (fun c => getCell p.2 ((colIdx tsCols c).getD 0)))).map
      (fun r => getCell r 0) = times.map some := by
    rw [List.map_map]
    have hfst : (times.zip tsRows).map Prod.fst = times :=
      List.map_fst_zip times tsRows hlen_rt.ge
    calc ((times.zip tsRows).map (fun p => (some p.1 : Val)))
        = ((times.zip tsRows).map Prod.fst).map some := by rw [List.map_map]; rfl
      _ = times.map some := by rw [hfst]
  have hn1B : "trial_idx" ∉ ("time" :: cr ::
      tsCols.filter (fun c => decide (c ∉ ["time", cr]))) := by
    intro h
    rcases List.mem_cons.mp h with h | h
    · exact absurd h (by decide)
    · rcases List.mem_cons.mp h with h | h
      · exact hc1 h.symm
      · exact hn1 (List.mem_of_mem_filter h)
  have hn2B : "inverted_time" ∉ ("time" :: cr ::
      tsCols.filter (fun c => decide (c ∉ ["time", cr]))) := by
    intro h
    rcases List.mem_cons.mp h with h | h
    · exact absurd h (by decide)
    · rcases List.mem_cons.mp h with h | h
      · exact hc2 h.symm
      · exact hn2 (List.mem_of_mem_filter h)
  have hn3B : "inverted_end_time" ∉ ("time" :: cr ::
      tsCols.filter (fun c => decide (c ∉ ["time", cr]))) := by
    intro h
    rcases List.mem_cons.mp h with h | h
    · exact absurd h (by decide)
    · rcases List.mem_cons.mp h with h | h
      · exact hc3 h.symm
      · exact hn3 (List.mem_of_mem_filter h)
  have hn4B : "start_time" ∉ ("time" :: cr ::
      tsCols.filter (fun c => decide (c ∉ ["time", cr]))) := by
    intro h
    rcases List.mem_cons.mp h with h | h
    · exact absurd h (by decide)
    · rcases List.mem_cons.mp h with h | h
      · exact hc6 h.symm
      · exact hn4 (List.mem_of_mem_filter h)
  have h2 := demarcate_trials_clean
    ("time" :: cr :: tsCols.filter (fun c => decide (c ∉ ["time", cr])))
    ((times.zip tsRows).map (fun p =>
      some p.1 :: assignVal trials m p.1 ::
        (tsCols.filter (fun c => decide (c ∉ ["time", cr]))).map
          (fun c => getCell p.2 ((colIdx tsCols c).getD 0))))
    times trials cr 0 m hjtB hwfB htvB hsorted hn1B hn2B hn3B hn4B
    hc2 hc4 hc5 htr hproper hm
  rw [h2]
  apply congrArg Except.ok
  have hd1 : decide ("time" ∉ ["time", cr]) = false := by
    apply decide_eq_false
    simp
  have hd2 : decide (cr ∉ ["time", cr]) = false := by
    apply decide_eq_false
    simp
  have hcolsEq : ("time" :: cr ::
      tsCols.filter (fun c => decide (c ∉ ["time", cr]))).filter
      (fun c => decide (c ∉ ["time", cr])) =
      tsCols.filter (fun c => decide (c ∉ ["time", cr])) := by
    rw [List.filter_cons, hd1, List.filter_cons, hd2]
    simp only [Bool.false_eq_true, if_false]
    apply List.filter_eq_self.mpr
    intro c hc
    have h5 := List.of_mem_filter hc
    exact h5
  simp only [demarcResult, hcolsEq]
  congr 1
  rw [zip_self_map_map]
  apply List.map_congr_left
  intro p hp
  show some p.1 :: assignVal trials m p.1 ::
      (tsCols.filter (fun c => decide (c ∉ ["time", cr]))).map
        (fun c => getCell (some p.1 :: assignVal trials m p.1 ::
          (tsCols.filter (fun c => decide (c ∉ ["time", cr]))).map
            (fun c => getCell p.2 ((colIdx tsCols c).getD 0)))
          ((colIdx ("time" :: cr ::
            tsCols.filter (fun c => decide (c ∉ ["time", cr]))) c).getD 0)) = _
  refine congrArg _ (congrArg _ (List.map_congr_left ?_))
  intro c hcf
  obtain ⟨hcm, hct, hccr⟩ := hfilt_sub c hcf
  obtain ⟨jF, hjF⟩ := Option.isSome_iff_exists.mp (colIdx_isSome_iff.mpr hcf)
  have hciB : colIdx ("time" :: cr ::
      tsCols.filter (fun c => decide (c ∉ ["time", cr]))) c =
      some ((jF + 1) + 1) := by
    simp only [colIdx, if_neg (Ne.symm hct), if_neg (Ne.symm hccr), hjF,
      Option.map_some']
  rw [hciB]
  show getCell ((tsCols.filter (fun c => decide (c ∉ ["time", cr]))).map
    (fun c => getCell p.2 ((colIdx tsCols c).getD 0))) jF = _
  rw [getCell_map_getD _ _ (colIdx_lt_length hjF), colIdx_getElem hjF]

/-- Witness for the amended C2 at a concrete clean fixture. -/
theorem C2_demarcate_trials_idempotent_clean_witness :
    ∃ out, demarcate_trials
        ⟨["time"], [0, 1, 2], [[some (0 : ℚ)], [some 1], [some 5]]⟩
        (trialsDF [((1 : ℚ), 3, 0), (4, 6, 1)]) "time" "start_time"
        "reward_collection_time" "trial_idx" (some "tid") = .ok out ∧
      demarcate_trials out (trialsDF [((1 : ℚ), 3, 0), (4, 6, 1)]) "time"
        "start_time" "reward_collection_time" "trial_idx" (some "tid") =
        .ok out :=
  C2_demarcate_trials_idempotent_clean ["time"] [[some 0], [some 1], [some 5]]
    [0, 1, 5] [(1, 3, 0), (4, 6, 1)] "tid" 0 6
    (by decide) (by decide) (by with_unfolding_all decide)
    (by with_unfolding_all decide) (by decide) (by decide) (by decide)
    (by decide) (by decide) (by decide) (by decide) (by decide) (by decide)
    (by decide) (by with_unfolding_all decide) (by with_unfolding_all decide)
    (by with_unfolding_all decide)

/-- Witness for the amended C6 at a concrete clean fixture: the sample at
time 1 sits exactly on the first trial's start boundary and is assigned
that trial's index 0. -/
theorem C6_boundary_start_assigned_strict_gap_witness :
    ∃ out, demarcate_trials
        ⟨["time"], [0, 1, 2], [[some (0 : ℚ)], [some 1], [some 5]]⟩
        (trialsDF [((1 : ℚ), 3, 0), (4, 6, 1)]) "time" "start_time"
        "reward_collection_time" "trial_idx" (some "tid") = .ok out ∧
      getCell (out.rows.getD 1 []) 1 = some 0 :=
  C6_boundary_start_assigned_strict_gap ["time"] [[some 0], [some 1], [some 5]]
    [0, 1, 5] [(1, 3, 0), (4, 6, 1)] "tid" 0 6
    (by decide) (by decide) (by with_unfolding_all decide)
    (by with_unfolding_all decide) (by decide) (by decide) (by decide)
    (by decide) (by decide) (by decide) (by decide)
    (by with_unfolding_all decide) (by with_unfolding_all decide)
    (by with_unfolding_all decide) 0 1 (by decide) (by decide)
    (by with_unfolding_all decide)

end OpOp
